import Mathlib

/-!
# Instance pool of the balancer (`balancer/pool/pool.go`)

The instance pool comes first, the host agent listener (`agent/listener.go`) second;
the lemmas and the claims on both follow.

A shallow embedding of the instance pool.  Go pointers `*PooledInstance` are
addresses (`Nat`) into an explicit object memory `mem`; the slices `ready` and
`retry` are lists of addresses.  A run-time panic (index out of range) is the
result `none`.  The loops of `container/heap` and of `processRetries` are
bounded by a fuel that the wrappers compute from the slice length; the fuel is
always large enough and running out of it is reported as `none` as well, so every
result `some _` below is a result of the real loop.

Times are integers counting nanoseconds from the zero `time.Time`; durations are
`int64` nanoseconds with explicit wrap-around.
-/

namespace pool

/-! ## `time`

The part of the standard library package `time` that the pool uses.  A `time.Time`
is an `Int`: the nanoseconds since the zero time, so that `time.Time{}` is `0`.  A
`time.Duration` is an `Int` in the `int64` range, a count of nanoseconds. -/

/-- Two's complement wrap-around of an integer into the `int64` range. -/
def toInt64 (x : Int) : Int := (x + 2 ^ 63) % 2 ^ 64 - 2 ^ 63

/-- The largest duration, `1<<63 - 1`. -/
def maxDuration : Int := 2 ^ 63 - 1

/-- The smallest duration, `-1 << 63`. -/
def minDuration : Int := -(2 ^ 63)

/-- The constant `time.Second`, in nanoseconds. -/
def Second : Int := 1000000000

/-- The constant `time.Hour`. -/
def Hour : Int := 3600 * Second

/-- The method `t.IsZero()`. -/
def IsZero (t : Int) : Bool := t == 0

/-- The method `t.Before(u)`. -/
def Before (t u : Int) : Bool := decide (t < u)

/-- The method `t.Add(d)`. -/
def Add (t : Int) (d : Int) : Int := t + d

/-- The method `t.Sub(u)`: the difference, saturated to the `int64` range of a duration. -/
def Sub (t u : Int) : Int :=
  if t - u > maxDuration then maxDuration
  else if t - u < minDuration then minDuration
  else t - u

/-- The first nanosecond of 1970 (the Unix epoch) counted from the zero time. -/
def unixEpoch : Int := 62135596800 * Second

/-! ## Data model -/

/-- Modelled from the spec: `netutil.IPPort` is declared in `common/netutil`, outside
the sources at hand; the pool only copies its values, an IP address and a port. -/
structure IPPort where
  IP : String
  Port : Nat
deriving DecidableEq, Inhabited

/-- Modelled from the spec: `model.Instance` is declared in `balancer/model`, outside
the sources at hand; the pool reads and writes its fields `Name` and `Address` only. -/
structure Instance where
  Name : String
  Address : IPPort
deriving DecidableEq, Inhabited

/-- The type `PooledInstance`; `failures` is a Go `uint`, taken as 64 bits wide, and `index`
a Go `int` that the code only ever sets to a position in a slice. -/
structure PooledInstance where
  Instance : Instance
  index : Nat
  failures : Nat
  retryTime : Int
deriving DecidableEq, Inhabited

/-- The `timer` field once it is non-nil: whether it is armed and the duration
it was last set to. -/
structure Timer where
  armed : Bool
  d : Int
deriving DecidableEq, Inhabited

/-- The type `InstancePool` together with the objects its pointers refer to.
`mem a` is the object at address `a`; `next` is the first address not yet
allocated; `stopped` tells whether the channel `stopped` has been closed. -/
structure InstancePool where
  mem : Nat → PooledInstance
  next : Nat
  timer : Option Timer
  stopped : Bool
  ready : List Nat
  retry : List Nat

/-- The function `NewInstancePool()`. -/
def NewInstancePool : InstancePool :=
  { mem := fun _ => default, next := 0, timer := none, stopped := false,
    ready := [], retry := [] }

/-- The constant `retry_interval_base = 1 * time.Second`. -/
def retry_interval_base : Int := toInt64 (1 * Second)

/-- The shift `1 << f` evaluated in `int64` (the type the untyped constant takes from
`retry_interval_base`), for an unsigned shift count `f`. -/
def shl1 (f : Nat) : Int := if f < 64 then toInt64 (2 ^ f) else 0

/-- The value of `delay` in `reschedule`: `(1 << failures) * retry_interval_base`
in `int64` arithmetic. -/
def backoffDelay (f : Nat) : Int := toInt64 (shl1 f * retry_interval_base)

/-! ## `retryQueue` as a `heap.Interface` -/

/-- The method `retryQueue.Less`. -/
def Less (p : InstancePool) (i j : Nat) : Option Bool :=
  match p.retry[i]?, p.retry[j]? with
  | some a, some b => some (Before (p.mem a).retryTime (p.mem b).retryTime)
  | _, _ => none

/-- The method `retryQueue.Swap`. -/
def Swap (p : InstancePool) (i j : Nat) : Option InstancePool :=
  match p.retry[i]?, p.retry[j]? with
  | some a, some b =>
    let retry := (p.retry.set i b).set j a
    let mem1 := Function.update p.mem a { p.mem a with index := j }
    let mem2 := Function.update mem1 b { mem1 b with index := i }
    some { p with retry := retry, mem := mem2 }
  | _, _ => none

/-- The method `retryQueue.Push`. -/
def Push (p : InstancePool) (inst : Nat) : InstancePool :=
  { p with
    mem := Function.update p.mem inst { p.mem inst with index := p.retry.length },
    retry := p.retry ++ [inst] }

/-- The method `retryQueue.Pop`. -/
def Pop (p : InstancePool) : Option (Nat × InstancePool) :=
  match p.retry.getLast? with
  | some inst => some (inst, { p with retry := p.retry.dropLast })
  | none => none

/-! ## `container/heap`

The standard library package `container/heap`, applied to the `retryQueue`. -/

/-- The loop of `heap.up`. -/
def upLoop : Nat → InstancePool → Nat → Option InstancePool
  | 0, _, _ => none
  | fuel + 1, p, j =>
    let i := (j - 1) / 2
    if i = j then some p
    else
      match Less p j i with
      | none => none
      | some false => some p
      | some true => (Swap p i j).bind fun q => upLoop fuel q i

/-- The function `heap.up`. -/
def heap.up (p : InstancePool) (j : Nat) : Option InstancePool := upLoop (j + 1) p j

/-- The loop of `heap.down`; the result carries the final value of `i`. -/
def downLoop : Nat → InstancePool → Nat → Nat → Option (InstancePool × Nat)
  | 0, _, _, _ => none
  | fuel + 1, p, i, n =>
    let j1 := 2 * i + 1
    if n ≤ j1 then some (p, i)
    else
      match (if j1 + 1 < n then Less p (j1 + 1) j1 else some false) with
      | none => none
      | some c =>
        let j := if c then j1 + 1 else j1
        match Less p j i with
        | none => none
        | some false => some (p, i)
        | some true => (Swap p i j).bind fun q => downLoop fuel q j n

/-- The function `heap.down`: the result tells whether the element moved. -/
def heap.down (p : InstancePool) (i0 n : Nat) : Option (InstancePool × Bool) :=
  (downLoop (n + 1) p i0 n).map fun r => (r.1, decide (i0 < r.2))

/-- The loop of `heap.Init`, `k` counting the iterations left: `i = k - 1`. -/
def initLoop : Nat → InstancePool → Nat → Option InstancePool
  | 0, p, _ => some p
  | k + 1, p, n => (heap.down p k n).bind fun r => initLoop k r.1 n

/-- The function `heap.Init`. -/
def heap.Init (p : InstancePool) : Option InstancePool :=
  initLoop (p.retry.length / 2) p p.retry.length

/-- The function `heap.Push`; `pool.Push` is `retryQueue.Push`. -/
def heap.Push (p : InstancePool) (x : Nat) : Option InstancePool :=
  let q := pool.Push p x
  heap.up q (q.retry.length - 1)

/-- The function `heap.Pop`; `pool.Pop` is `retryQueue.Pop`. -/
def heap.Pop (p : InstancePool) : Option (Nat × InstancePool) :=
  let n := p.retry.length - 1
  (Swap p 0 n).bind fun q => (heap.down q 0 n).bind fun r => pool.Pop r.1

/-- The function `heap.Remove`, as in the current standard library, where `down` reports
whether the element moved. -/
def heap.Remove (p : InstancePool) (i : Nat) : Option (Nat × InstancePool) :=
  let n := p.retry.length - 1
  if n ≠ i then
    (Swap p i n).bind fun q =>
      (heap.down q i n).bind fun r =>
        if r.2 then pool.Pop r.1 else (heap.up r.1 i).bind pool.Pop
  else pool.Pop p

/-! ## The pool -/

/-- The method `resetTimer`. -/
def resetTimer (p : InstancePool) (now : Int) : InstancePool :=
  match p.retry with
  | [] =>
    match p.timer with
    | some _ => { p with timer := some ⟨true, 24 * Hour⟩ }
    | none => p
  | a :: _ => { p with timer := some ⟨true, Sub (p.mem a).retryTime now⟩ }

/-- The method `reschedule`; `now` is the value of `p.now()`. -/
def reschedule (p : InstancePool) (inst : Nat) (now : Int) : InstancePool :=
  let o := p.mem inst
  { p with
    mem := Function.update p.mem inst
      { o with failures := (o.failures + 1) % 2 ^ 64,
               retryTime := Add now (backoffDelay o.failures) } }

/-- The method `fail`; `now1` and `now2` are the two readings of `p.now()`, in
`reschedule` and for `resetTimer`. -/
def fail (p : InstancePool) (inst : Nat) (now1 now2 : Int) : Option InstancePool :=
  let idx := (p.mem inst).index
  match p.ready.getLast? with
  | none => none
  | some last =>
    if idx < p.ready.length then
      let p1 := { p with ready := (p.ready.set idx last).dropLast }
      let p2 := reschedule p1 inst now1
      (heap.Push p2 inst).map fun p3 => resetTimer p3 now2
    else none

/-- The method `Failed`. -/
def Failed (p : InstancePool) (inst : Nat) (now1 now2 : Int) : Option InstancePool :=
  if IsZero (p.mem inst).retryTime then fail p inst now1 now2 else some p

/-- The method `Succeeded`. -/
def Succeeded (p : InstancePool) (inst : Nat) (now : Int) : Option InstancePool :=
  let p1 := { p with mem := Function.update p.mem inst { p.mem inst with failures := 0 } }
  if !IsZero (p1.mem inst).retryTime then
    (heap.Remove p1 (p1.mem inst).index).map fun r =>
      let p2 := resetTimer r.2 now
      { p2 with
        mem := Function.update p2.mem inst
          { p2.mem inst with retryTime := 0, index := p2.ready.length },
        ready := p2.ready ++ [inst] }
  else some p1

/-- The method `PickInstance`; `rnd` is the random source, `p.rng.Intn(n)` being
`rnd % n`.  The result is the returned pointer (`none` for `nil`) and the pool. -/
def PickInstance (p : InstancePool) (rnd : Nat) (now1 now2 : Int) :
    Option (Option Nat × InstancePool) :=
  if p.ready.length ≠ 0 then
    match p.ready[rnd % p.ready.length]? with
    | none => none
    | some inst =>
      if (p.mem inst).failures ≠ 0 then
        (fail p inst now1 now2).map fun q => (some inst, q)
      else some (some inst, p)
  else if p.retry.length ≠ 0 then
    match p.retry[rnd % p.retry.length]? with
    | none => none
    | some inst => some (some inst, p)
  else some (none, p)

/-- The loop of `processRetries`. -/
def processLoop : Nat → InstancePool → Int → Option InstancePool
  | 0, _, _ => none
  | fuel + 1, p, now =>
    match p.retry with
    | [] => some p
    | inst :: _ =>
      if !Before now (p.mem inst).retryTime then
        (heap.Pop p).bind fun r =>
          let q := r.2
          processLoop fuel
            { q with
              mem := Function.update q.mem inst
                { q.mem inst with retryTime := 0, index := q.ready.length },
              ready := q.ready ++ [inst] }
            now
      else some p

/-- The method `processRetries`. -/
def processRetries (p : InstancePool) (now : Int) : Option InstancePool :=
  (processLoop (p.retry.length + 1) p now).map fun q => resetTimer q now

/-! ### `UpdateInstances` -/

/-- A Go `map[string]netutil.IPPort` as an association list with distinct keys. -/
abbrev WantMap := List (String × IPPort)

/-- The assignment `m[k] = v`. -/
def mapSet (m : WantMap) (k : String) (v : IPPort) : WantMap :=
  (m.filter fun e => e.1 != k) ++ [(k, v)]

/-- The lookup `_, found := m[k]`. -/
def mapFound (m : WantMap) (k : String) : Bool := m.any fun e => e.1 == k

/-- The statement `delete(m, k)`. -/
def mapDelete (m : WantMap) (k : String) : WantMap := m.filter fun e => e.1 != k

/-- The first loop of `UpdateInstances`: `wantInsts`. -/
def wantInsts (instances : List Instance) : WantMap :=
  instances.foldl (fun m inst => mapSet m inst.Name inst.Address) []

/-- The local variables of `UpdateInstances` that `keepInsts` captures, with the
object memory. -/
structure KeepState where
  mem : Nat → PooledInstance
  want : WantMap
  ready : List Nat
  retry : List Nat

/-- One iteration of the loop of `keepInsts`. -/
def keepOne (s : KeepState) (inst : Nat) : KeepState :=
  if mapFound s.want (s.mem inst).Instance.Name then
    let want := mapDelete s.want (s.mem inst).Instance.Name
    if IsZero (s.mem inst).retryTime then
      { s with want := want,
               mem := Function.update s.mem inst { s.mem inst with index := s.ready.length },
               ready := s.ready ++ [inst] }
    else
      { s with want := want,
               mem := Function.update s.mem inst { s.mem inst with index := s.retry.length },
               retry := s.retry ++ [inst] }
  else s

/-- The closure `keepInsts`. -/
def keepInsts (s : KeepState) (insts : List Nat) : KeepState := insts.foldl keepOne s

/-- The loop "Add new instances" over the entries of the map, in the order the
run time yields them; each allocates an object at the next free address. -/
def addNew : List (String × IPPort) → (Nat → PooledInstance) → Nat → List Nat →
    (Nat → PooledInstance) × Nat × List Nat
  | [], mem, next, ready => (mem, next, ready)
  | (name, addr) :: rest, mem, next, ready =>
    addNew rest
      (Function.update mem next
        { Instance := { Name := name, Address := addr }, index := ready.length,
          failures := 0, retryTime := 0 })
      (next + 1) (ready ++ [next])

/-- The method `UpdateInstances`; `order` is the order in which the run time iterates over
a map (some rearrangement of its entries), `now` the value of `p.now()`. -/
def UpdateInstances (p : InstancePool) (instances : List Instance)
    (order : WantMap → WantMap) (now : Int) : Option InstancePool :=
  let s0 : KeepState := { mem := p.mem, want := wantInsts instances, ready := [], retry := [] }
  let s1 := keepInsts s0 p.ready
  let s2 := keepInsts s1 p.retry
  let r := addNew (order s2.want) s2.mem p.next s2.ready
  let p1 : InstancePool := { p with mem := r.1, next := r.2.1, ready := r.2.2, retry := s2.retry }
  (heap.Init p1).map fun p2 => resetTimer p2 now

/-! ## Specification vocabulary -/

/-- Every element of `retry` records its own position. -/
def RetryIdx (p : InstancePool) : Prop :=
  ∀ k a, p.retry[k]? = some a → (p.mem a).index = k

/-- Every element of `ready` records its own position. -/
def ReadyIdx (p : InstancePool) : Prop :=
  ∀ k a, p.ready[k]? = some a → (p.mem a).index = k

/-- The deadline of the element at position `k` of `retry` (`0` past the end). -/
def keyAt (p : InstancePool) (k : Nat) : Int :=
  match p.retry[k]? with
  | some a => (p.mem a).retryTime
  | none => 0

/-- The first `n` elements of `retry` are in min-heap order: no element is
before its parent. -/
def HeapUpTo (p : InstancePool) (n : Nat) : Prop :=
  ∀ k, 0 < k → k < n → keyAt p ((k - 1) / 2) ≤ keyAt p k

/-- The array `retry` is a binary min-heap on `retryTime`. -/
def HeapOrd (p : InstancePool) : Prop := HeapUpTo p p.retry.length

/-- What the operations of `container/heap` leave alone: everything but the
order of `retry` and the `index` fields of its elements. -/
structure Frame (p q : InstancePool) : Prop where
  ready : q.ready = p.ready
  next : q.next = p.next
  timer : q.timer = p.timer
  stopped : q.stopped = p.stopped
  perm : q.retry.Perm p.retry
  inst : ∀ a, (q.mem a).Instance = (p.mem a).Instance
  failures : ∀ a, (q.mem a).failures = (p.mem a).failures
  retryTime : ∀ a, (q.mem a).retryTime = (p.mem a).retryTime
  other : ∀ a, a ∉ p.retry → q.mem a = p.mem a
  idx : RetryIdx p → RetryIdx q

/-- The precondition of `up` at `j`: min-heap order among the first `n` elements
except between `j` and its parent, the children of `j` being no earlier than
the parent of `j`. -/
def UpPre (p : InstancePool) (n j : Nat) : Prop :=
  (∀ k, 0 < k → k < n → k ≠ j → keyAt p ((k - 1) / 2) ≤ keyAt p k) ∧
  (∀ c, 0 < c → c < n → (c - 1) / 2 = j → keyAt p ((j - 1) / 2) ≤ keyAt p c)

/-- The precondition of `down` at `i`: min-heap order among the first `n`
elements except on the edges at `i`, the children of `i` being no earlier than
the parent of `i`. -/
def DownPre (p : InstancePool) (n i : Nat) : Prop :=
  (∀ k, 0 < k → k < n → k ≠ i → (k - 1) / 2 ≠ i → keyAt p ((k - 1) / 2) ≤ keyAt p k) ∧
  (0 < i → ∀ c, c < n → (c - 1) / 2 = i → keyAt p ((i - 1) / 2) ≤ keyAt p c)

/-- What `heap.Remove` and `heap.Pop` achieve: `a` has left `retry`. -/
structure Removed (p : InstancePool) (a : Nat) (q : InstancePool) : Prop where
  ready : q.ready = p.ready
  next : q.next = p.next
  timer : q.timer = p.timer
  stopped : q.stopped = p.stopped
  perm : p.retry.Perm (a :: q.retry)
  inst : ∀ b, (q.mem b).Instance = (p.mem b).Instance
  failures : ∀ b, (q.mem b).failures = (p.mem b).failures
  retryTime : ∀ b, (q.mem b).retryTime = (p.mem b).retryTime
  other : ∀ b, b ∉ p.retry → q.mem b = p.mem b
  idx : RetryIdx p → RetryIdx q
  heap : HeapOrd p → HeapOrd q

/-- The pool invariants: no instance is held twice, every instance records its
position in the array that holds it, the instances of `ready` have no
`retryTime`, those of `retry` have one, and `retry` is a min-heap. -/
structure PoolInv (p : InstancePool) : Prop where
  nodup : (p.ready ++ p.retry).Nodup
  readyIdx : ReadyIdx p
  retryIdx : RetryIdx p
  readyZero : ∀ a ∈ p.ready, (p.mem a).retryTime = 0
  retrySet : ∀ a ∈ p.retry, (p.mem a).retryTime ≠ 0
  heap : HeapOrd p

/-- The `Instance.Name` values over `ready` and `retry`. -/
def names (p : InstancePool) : List String :=
  (p.ready ++ p.retry).map fun a => (p.mem a).Instance.Name

/-- A call of one of the operations of the pool, with its arguments, the clock
readings it makes and its random choices. -/
inductive Call where
  | pick (rnd : Nat) (now1 now2 : Int)
  | succeeded (inst : Nat) (now : Int)
  | failed (inst : Nat) (now1 now2 : Int)
  | update (instances : List Instance) (order : WantMap → WantMap) (now : Int)
  | process (now : Int)

/-- The pool after one call. -/
def step (p : InstancePool) : Call → Option InstancePool
  | .pick rnd now1 now2 => (PickInstance p rnd now1 now2).map fun r => r.2
  | .succeeded inst now => Succeeded p inst now
  | .failed inst now1 now2 => Failed p inst now1 now2
  | .update instances order now => UpdateInstances p instances order now
  | .process now => processRetries p now

/-- The pool after a sequence of calls. -/
def run (p : InstancePool) : List Call → Option InstancePool
  | [] => some p
  | c :: cs => (step p c).bind fun q => run q cs

/-- The instance `A` of the scenarios. -/
def instA : Instance := ⟨"A", ⟨"10.0.0.1", 80⟩⟩

/-- The instance `B` of the scenarios. -/
def instB : Instance := ⟨"B", ⟨"10.0.0.2", 80⟩⟩

/-- The instance `C` of the scenarios. -/
def instC : Instance := ⟨"C", ⟨"10.0.0.3", 80⟩⟩

/-- What the demotion `fail` of `x` at clock reading `now` achieves. -/
structure Demoted (p : InstancePool) (x : Nat) (now : Int) (q : InstancePool) : Prop where
  next : q.next = p.next
  stopped : q.stopped = p.stopped
  readyPerm : p.ready.Perm (x :: q.ready)
  retryPerm : q.retry.Perm (x :: p.retry)
  failures : (q.mem x).failures = ((p.mem x).failures + 1) % 2 ^ 64
  retryTime : (q.mem x).retryTime = now + backoffDelay (p.mem x).failures
  inst : ∀ b, (q.mem b).Instance = (p.mem b).Instance
  failuresOther : ∀ b, b ≠ x → (q.mem b).failures = (p.mem b).failures
  retryTimeOther : ∀ b, b ≠ x → (q.mem b).retryTime = (p.mem b).retryTime
  other : ∀ b, b ∉ p.retry → b ≠ x → q.mem b = p.mem b
  idx : RetryIdx p → x ∉ p.retry → RetryIdx q
  heap : HeapOrd p → x ∉ p.retry → HeapOrd q
  readyEq : ∀ last, p.ready.getLast? = some last →
    q.ready = (p.ready.set (p.mem x).index last).dropLast

/-- What `Succeeded` achieves on an instance `x` of `retry`. -/
structure Promoted (p : InstancePool) (x : Nat) (q : InstancePool) : Prop where
  next : q.next = p.next
  stopped : q.stopped = p.stopped
  ready : q.ready = p.ready ++ [x]
  perm : p.retry.Perm (x :: q.retry)
  notMem : x ∉ q.retry
  failures : (q.mem x).failures = 0
  retryTime : (q.mem x).retryTime = 0
  index : (q.mem x).index = p.ready.length
  inst : ∀ b, (q.mem b).Instance = (p.mem b).Instance
  failuresOther : ∀ b, b ≠ x → (q.mem b).failures = (p.mem b).failures
  retryTimeOther : ∀ b, b ≠ x → (q.mem b).retryTime = (p.mem b).retryTime
  other : ∀ b, b ∉ p.retry → b ≠ x → q.mem b = p.mem b
  idx : RetryIdx p → RetryIdx q
  heap : HeapOrd p → HeapOrd q

/-- A pool with `B` ready and `A` waiting for its retry one second after the epoch. -/
def poolAB : InstancePool :=
  { mem := fun a =>
      if a = 0 then { Instance := instA, index := 0, failures := 1, retryTime := unixEpoch + Second }
      else { Instance := instB, index := 0, failures := 0, retryTime := 0 },
    next := 2, timer := none, stopped := false, ready := [1], retry := [0] }

/-- A pool holding the single ready instance `A`. -/
def poolA : InstancePool :=
  { mem := fun _ => { Instance := instA, index := 0, failures := 0, retryTime := 0 },
    next := 1, timer := none, stopped := false, ready := [0], retry := [] }

/-- A pool whose single ready instance has failed 34 times. -/
def pool34 : InstancePool :=
  { mem := fun _ => { Instance := instA, index := 0, failures := 34, retryTime := 0 },
    next := 1, timer := none, stopped := false, ready := [0], retry := [] }

/-- Two ready instances, `B` having failed once. -/
def poolSuspect : InstancePool :=
  { mem := fun a =>
      if a = 0 then { Instance := instA, index := 0, failures := 0, retryTime := 0 }
      else { Instance := instB, index := 1, failures := 1, retryTime := 0 },
    next := 2, timer := none, stopped := false, ready := [0, 1], retry := [] }

/-- The keys of a map. -/
def keys (m : WantMap) : List String := m.map fun e => e.1

/-- The instances kept so far by `keepInsts`. -/
def kept (s : KeepState) : List Nat := s.ready ++ s.retry

/-- The invariant of the loop of `keepInsts`, for the object memory `m0` and the
names `W` wanted at the start, `seen` being the instances visited so far. -/
structure KeepInv (m0 : Nat → PooledInstance) (W : List String) (seen : List Nat)
    (s : KeepState) : Prop where
  inst : ∀ a, (s.mem a).Instance = (m0 a).Instance
  failures : ∀ a, (s.mem a).failures = (m0 a).failures
  retryTime : ∀ a, (s.mem a).retryTime = (m0 a).retryTime
  wantNodup : (keys s.want).Nodup
  namesNodup : ((kept s).map fun a => (m0 a).Instance.Name).Nodup
  disjoint : ∀ n, n ∈ keys s.want → n ∉ (kept s).map fun a => (m0 a).Instance.Name
  cover : ∀ n, n ∈ W ↔ n ∈ keys s.want ∨ n ∈ (kept s).map fun a => (m0 a).Instance.Name
  sub : ∀ a ∈ kept s, a ∈ seen
  done : ∀ a ∈ seen, (m0 a).Instance.Name ∉ keys s.want

/-- The instance `A` at another address. -/
def instA2 : Instance := ⟨"A", ⟨"10.9.9.9", 8080⟩⟩

/-- The pool `poolAB` after `UpdateInstances` dropped `A`: the object `0` is a
stale handle with its `retryTime` set, any object from `2` on is a stale handle
without `retryTime`. -/
def poolGone : InstancePool := { poolAB with retry := [] }

/-- The method `Stop`: `close(p.stopped)` panics when the channel is already
closed; the timer, if there is one, is stopped. -/
def Stop (p : InstancePool) : Option InstancePool :=
  if p.stopped then none
  else some { p with stopped := true, timer := p.timer.map fun t => { t with armed := false } }

/-- The pool `poolAB` with an armed timer. -/
def poolTimed : InstancePool := { poolAB with timer := some ⟨true, Second⟩ }

/-- The pool `poolAB` without its ready instance. -/
def poolRetryOnly : InstancePool := { poolAB with ready := [] }

/-- What the loop of `processRetries` achieves at clock reading `now`. -/
structure Processed (p : InstancePool) (now : Int) (q : InstancePool) : Prop where
  next : q.next = p.next
  stopped : q.stopped = p.stopped
  timer : q.timer = p.timer
  popped : ∃ l, q.ready = p.ready ++ l ∧ p.retry.Perm (l ++ q.retry) ∧
    ∀ x ∈ l, (p.mem x).retryTime ≤ now ∧ (q.mem x).retryTime = 0
  late : ∀ x ∈ q.retry, now < (p.mem x).retryTime ∧ (q.mem x).retryTime = (p.mem x).retryTime
  failures : ∀ x, (q.mem x).failures = (p.mem x).failures
  inst : ∀ x, (q.mem x).Instance = (p.mem x).Instance
  other : ∀ x, x ∉ p.retry → q.mem x = p.mem x
  idx : RetryIdx q
  heap : HeapOrd q

end pool

/-!
# Host agent listener (`agent/listener.go`)

A shallow embedding of the listener.  Go strings are `String`s, cut at the ASCII
characters `:` and `=` through their lists of characters; Go maps are association
lists; a run-time panic (index out of range) is the result `none`.  The store and the
types of `common/data` are outside the sources at hand and are modelled from the spec.
-/

namespace agent

/-! ## Go maps and strings -/

/-- A Go `map[string]α`: its entries, with distinct keys, in the order in which the
run time iterates over them. -/
abbrev GoMap (α : Type) := List (String × α)

/-- The lookup `v, found := m[k]`. -/
def lookup {α : Type} (m : GoMap α) (k : String) : Option α :=
  (m.find? fun e => e.1 == k).map fun e => e.2

/-- The assignment `m[k] = v`. -/
def assign {α : Type} (m : GoMap α) (k : String) (v : α) : GoMap α :=
  (m.filter fun e => e.1 != k) ++ [(k, v)]

/-- The statement `delete(m, k)`. -/
def remove {α : Type} (m : GoMap α) (k : String) : GoMap α := m.filter fun e => e.1 != k

/-- A Go `error`; `none` is `nil`. -/
abbrev GoError := Option String

/-- The function `strings.LastIndex(s, sep)` for a separator `sep` of one ASCII
character; `none` is the result `-1`.  (Cutting a string at an ASCII character gives
the same pieces by bytes and by characters.) -/
def LastIndex : List Char → Char → Option Nat
  | [], _ => none
  | x :: xs, sep =>
    match LastIndex xs sep with
    | some i => some (i + 1)
    | none => if x = sep then some 0 else none

/-- The function `strings.Split(s, sep)` for a separator of one ASCII character. -/
def Split (sep : Char) : List Char → List (List Char)
  | [] => [[]]
  | c :: cs =>
    if c = sep then [] :: Split sep cs
    else
      match Split sep cs with
      | [] => [[c]]
      | p :: ps => (c :: p) :: ps

/-- The function `strings.SplitN(s, sep, 2)` for a separator of one ASCII character. -/
def SplitN2 (sep : Char) : List Char → List (List Char)
  | [] => [[]]
  | c :: cs =>
    if c = sep then [[], cs]
    else
      match SplitN2 sep cs with
      | [] => [[c]]
      | p :: ps => (c :: p) :: ps

/-- The digits of `strconv.Atoi`, read from the left with the value so far. -/
def parseDigits : List Char → Nat → Option Nat
  | [], n => some n
  | c :: cs, n =>
    if '0' ≤ c ∧ c ≤ '9' then parseDigits cs (n * 10 + (c.toNat - '0'.toNat)) else none

/-- The function `strconv.Atoi`: an optional sign, then one or more decimal digits,
the value being in the range of a 64-bit `int`; `none` is an error. -/
def Atoi (s : String) : Option Int :=
  let neg := s.data.head? = some '-'
  let digits := if s.data.head? = some '-' ∨ s.data.head? = some '+' then s.data.tail else s.data
  if digits = [] then none
  else
    match parseDigits digits 0 with
    | none => none
    | some n =>
      if neg then (if n ≤ 2 ^ 63 then some (-(n : Int)) else none)
      else (if n < 2 ^ 63 then some (n : Int) else none)

/-! ## `docker.Container`: the fields that the listener reads -/

/-- The type `docker.PortBinding`. -/
structure PortBinding where
  HostIP : String
  HostPort : String
deriving DecidableEq, Inhabited

/-- The type `docker.Config`. -/
structure Config where
  Image : String
  Env : List String
  Labels : GoMap String
deriving DecidableEq, Inhabited

/-- The type `docker.NetworkSettings`; the keys of `Ports` are `docker.Port` strings. -/
structure NetworkSettings where
  IPAddress : String
  Ports : GoMap (List PortBinding)
deriving DecidableEq, Inhabited

/-- The type `docker.Container`. -/
structure Container where
  ID : String
  Config : Config
  NetworkSettings : NetworkSettings
deriving DecidableEq, Inhabited

/-! ## `common/data` and `common/store` -/

/-- Modelled from the spec: `data.AddressSpec` is declared in `common/data`, outside the
sources at hand; an address spec is `{mode ∈ {mapped, fixed}, port}`, the mode being
the field `Type` of the code. -/
structure AddressSpec where
  AddrType : String
  Port : Int

/-- Modelled from the spec: `data.InstanceSpec` is declared in `common/data`; it carries
an address spec and a selector, a conjunction of predicates `(key, matcher)`. -/
structure InstanceSpec where
  AddressSpec : AddressSpec
  Selector : List (String × (String → Bool))

/-- Modelled from the spec: `data.Service` is declared in `common/data`; the listener
reads its instance specs, grouped by instance group. -/
structure Service where
  InstanceSpecs : GoMap InstanceSpec

/-- Modelled from the spec: `data.Instance` is declared in `common/data`; the fields are
those that the listener writes. -/
structure Instance where
  OwnerID : String
  Address : String
  Port : Int
  Labels : GoMap String
  InstanceGroup : String
deriving DecidableEq, Inhabited

/-- Modelled from the spec: `InstanceSpec.Includes` is declared in `common/data`; a
container satisfies a selector iff every predicate, applied to the value produced by
the label matcher, holds.  The predicates are evaluated in order up to the first one
that fails; `none` is a panic of the label matcher. -/
def Includes (label : String → Option String) : List (String × (String → Bool)) → Option Bool
  | [] => some true
  | (k, m) :: rest =>
    match label k with
    | none => none
    | some v => if m v then Includes label rest else some false

/-- A call that writes to the store. -/
inductive StoreCall where
  | AddInstance (serviceName instanceName : String) (inst : Instance)
  | RemoveInstance (serviceName instanceName : String)
deriving DecidableEq

/-- Modelled from the spec: the coordination store is declared in `common/store`; here
it is an in-memory store holding the registered services and the instance records,
keyed by service name and instance name, together with the list of the write calls
it has received. -/
structure Store where
  services : GoMap Service
  instances : List ((String × String) × Instance)
  calls : List StoreCall

/-- Modelled from the spec: `add_instance(serviceName, instanceName, Instance)` writes
the record under its key. -/
def Store.AddInstance (s : Store) (serviceName instanceName : String) (inst : Instance) :
    Store × GoError :=
  ({ s with
     instances :=
       (s.instances.filter fun r => r.1 != (serviceName, instanceName)) ++
         [((serviceName, instanceName), inst)],
     calls := s.calls ++ [.AddInstance serviceName instanceName inst] }, none)

/-- Modelled from the spec: `remove_instance(serviceName, instanceName)` deletes the
record under that key. -/
def Store.RemoveInstance (s : Store) (serviceName instanceName : String) : Store × GoError :=
  ({ s with
     instances := s.instances.filter fun r => r.1 != (serviceName, instanceName),
     calls := s.calls ++ [.RemoveInstance serviceName instanceName] }, none)

/-- Modelled from the spec: `check_registered_service(serviceName)` tells whether the
service exists; `none` is `nil`. -/
def Store.CheckRegisteredService (s : Store) (serviceName : String) : GoError :=
  match lookup s.services serviceName with
  | some _ => none
  | none => some "not registered"

/-- Modelled from the spec: `get_service_details(serviceName)`. -/
def Store.GetServiceDetails (s : Store) (serviceName : String) : Option Service :=
  lookup s.services serviceName

/-- Modelled from the spec: `foreach_service_instance(per_service_fn?, per_instance_fn?)`
visits the services and the instance records that the store holds when it is called,
handing each to the function given for it; `σ` is the state the functions act on. -/
def Store.ForeachServiceInstance {σ : Type} (s : Store)
    (perService : Option (String → Service → σ → σ))
    (perInstance : Option (String → String → Instance → σ → σ)) (st : σ) : σ × GoError :=
  let st1 :=
    match perService with
    | none => st
    | some f => s.services.foldl (fun acc e => f e.1 e.2 acc) st
  let st2 :=
    match perInstance with
    | none => st1
    | some f => s.instances.foldl (fun acc r => f r.1.1 r.1.2 r.2 acc) st1
  (st2, none)

/-- Modelled from the spec: `foreach_instance(serviceName, fn)` visits the instance
records of one service. -/
def Store.ForeachInstance {σ : Type} (s : Store) (serviceName : String)
    (f : String → Instance → σ → σ) (st : σ) : σ × GoError :=
  ((s.instances.filter fun r => r.1.1 == serviceName).foldl (fun acc r => f r.1.2 r.2 acc) st,
    none)

/-! ## The listener -/

/-- The type `service`. -/
structure service where
  name : String
  details : Service

/-- The type `Listener`, without the docker client. -/
structure Listener where
  store : Store
  services : GoMap service
  containers : GoMap Container
  hostIP : String

/-- The method `ownerID`. -/
def ownerID (l : Listener) : String := l.hostIP

/-- The method `owns`. -/
def owns (l : Listener) (inst : Instance) : Bool := ownerID l == inst.OwnerID

/-- The function `instanceNameFor`. -/
def instanceNameFor (c : Container) : String := c.ID

/-- The function `imageTag`. -/
def imageTag (image : String) : String :=
  match LastIndex image.data ':' with
  | none => "latest"
  | some colon => ⟨image.data.drop colon⟩

/-- The function `imageName`. -/
def imageName (image : String) : String :=
  match LastIndex image.data ':' with
  | none => image
  | some colon => ⟨image.data.take colon⟩

/-- The function `envValue`; `none` is the panic of an index out of range. -/
def envValue : List String → String → Option String
  | [], _ => some ""
  | entry :: rest, key =>
    let keyval := Split '=' entry.data
    match keyval[0]? with
    | none => none
    | some k =>
      if String.mk k = key then (keyval[1]?).map String.mk
      else envValue rest key

/-- The method `containerLabels.Label`. -/
def Label (container : Container) (label : String) : Option String :=
  if label = "image" then some (imageName container.Config.Image)
  else if label = "tag" then some (imageTag container.Config.Image)
  else if label.data.length > 4 ∧ label.data.take 4 = "env.".data then
    envValue container.Config.Env ⟨label.data.drop 4⟩
  else some ((lookup container.Config.Labels label).getD "")

/-- The key `fmt.Sprintf("%d/tcp", port)`. -/
def portKey (port : Int) : String := toString port ++ "/tcp"

/-- The loop of `mappedPortAddress` over the bindings. -/
def firstBinding (hostIP : String) : List PortBinding → String × Int
  | [] => ("", 0)
  | binding :: rest =>
    if binding.HostIP = hostIP ∨ binding.HostIP = "" ∨ binding.HostIP = "0.0.0.0" then
      match Atoi binding.HostPort with
      | none => ("", 0)
      | some port => (hostIP, port)
    else firstBinding hostIP rest

/-- The method `mappedPortAddress`. -/
def mappedPortAddress (l : Listener) (container : Container) (port : Int) : String × Int :=
  match lookup container.NetworkSettings.Ports (portKey port) with
  | some bindings => firstBinding l.hostIP bindings
  | none => ("", 0)

/-- The method `fixedPortAddress`. -/
def fixedPortAddress (_l : Listener) (container : Container) (port : Int) : String × Int :=
  (container.NetworkSettings.IPAddress, port)

/-- The method `getAddress`. -/
def getAddress (l : Listener) (spec : InstanceSpec) (container : Container) : String × Int :=
  if spec.AddressSpec.AddrType = "mapped" then mappedPortAddress l container spec.AddressSpec.Port
  else if spec.AddressSpec.AddrType = "fixed" then
    fixedPortAddress l container spec.AddressSpec.Port
  else ("", 0)

/-- The loop of `extractInstance` over `container.Config.Env`; `none` is the panic of
an index out of range. -/
def envLabels : List String → GoMap String → Option (GoMap String)
  | [], labels => some labels
  | v :: rest, labels =>
    let kv := SplitN2 '=' v.data
    match kv[0]?, kv[1]? with
    | some k, some val => envLabels rest (assign labels ("env." ++ String.mk k) (String.mk val))
    | _, _ => none

/-- The method `extractInstance`; the outer `none` is a panic, the inner one the
result `ok == false`. -/
def extractInstance (l : Listener) (spec : InstanceSpec) (container : Container) :
    Option (Option Instance) :=
  match Includes (Label container) spec.Selector with
  | none => none
  | some false => some none
  | some true =>
    let addr := getAddress l spec container
    if addr.2 = 0 then some none
    else
      let labels0 : GoMap String :=
        [("tag", imageTag container.Config.Image), ("image", imageName container.Config.Image)]
      let labels1 := container.Config.Labels.foldl (fun m e => assign m e.1 e.2) labels0
      match envLabels container.Config.Env labels1 with
      | none => none
      | some labels =>
        some (some { OwnerID := ownerID l, Address := addr.1, Port := addr.2, Labels := labels,
                     InstanceGroup := "" })

/-- The loop of `evaluate` over the instance specs of the service. -/
def evaluateLoop (l : Listener) (container : Container) (svc : service) :
    List (String × InstanceSpec) → Option (Listener × Bool × GoError)
  | [] => some (l, false, none)
  | (group, spec) :: rest =>
    match extractInstance l spec container with
    | none => none
    | some (some inst) =>
      let r := l.store.AddInstance svc.name container.ID { inst with InstanceGroup := group }
      match r.2 with
      | some err => some ({ l with store := r.1 }, false, some err)
      | none => some ({ l with store := r.1 }, true, none)
    | some none => evaluateLoop l container svc rest

/-- The method `evaluate`. -/
def evaluate (l : Listener) (container : Container) (svc : service) :
    Option (Listener × Bool × GoError) :=
  evaluateLoop l container svc svc.details.InstanceSpecs

/-- The loop of `matchContainer` over the services. -/
def matchLoop (container : Container) : List (String × service) → Listener →
    Option (Listener × GoError)
  | [], l => some (l, none)
  | (_, svc) :: rest, l =>
    match evaluate l container svc with
    | none => none
    | some (l1, _, some err) => some (l1, some err)
    | some (l1, _, none) => matchLoop container rest l1

/-- The method `matchContainer`. -/
def matchContainer (l : Listener) (container : Container) : Option (Listener × GoError) :=
  matchLoop container l.services l

/-- The loop of `deregister` over the services. -/
def deregisterLoop (container : Container) : List (String × service) → Listener →
    Listener × GoError
  | [], l => (l, none)
  | (serviceName, _) :: rest, l =>
    if l.store.CheckRegisteredService serviceName = none then
      let r := l.store.RemoveInstance serviceName container.ID
      match r.2 with
      | some err => ({ l with store := r.1 }, some err)
      | none => deregisterLoop container rest { l with store := r.1 }
    else deregisterLoop container rest l

/-- The method `deregister`. -/
def deregister (l : Listener) (container : Container) : Listener × GoError :=
  deregisterLoop container l.services l

/-- The first loop of `reconcile`, over the containers; the result of
`matchContainer` is dropped. -/
def registerLoop : List (String × Container) → Listener → Option Listener
  | [], l => some l
  | (_, container) :: rest, l =>
    match matchContainer l container with
    | none => none
    | some (l1, _) => registerLoop rest l1

/-- The function that `reconcile` hands to `ForeachServiceInstance`. -/
def removeStale (serviceName instanceName : String) (inst : Instance) (l : Listener) :
    Listener :=
  if (lookup l.containers instanceName).isNone && owns l inst then
    { l with store := (l.store.RemoveInstance serviceName instanceName).1 }
  else l

/-- The removal pass of `reconcile`: the call of `ForeachServiceInstance`. -/
def removalPass (l : Listener) : Listener × GoError :=
  l.store.ForeachServiceInstance none (some removeStale) l

/-- The method `reconcile`. -/
def reconcile (l : Listener) : Option (Listener × GoError) :=
  (registerLoop l.containers l).map removalPass

/-- The first loop of `redefineService`, over the containers, building `keep`. -/
def keepLoop (svc : service) : List (String × Container) → Listener → GoMap Unit →
    Option (Listener × GoMap Unit × GoError)
  | [], l, keep => some (l, keep, none)
  | (_, container) :: rest, l, keep =>
    match evaluate l container svc with
    | none => none
    | some (l1, _, some err) => some (l1, keep, some err)
    | some (l1, inService, none) =>
      keepLoop svc rest l1 (if inService then assign keep (instanceNameFor container) () else keep)

/-- The method `redefineService`. -/
def redefineService (l : Listener) (serviceName : String) (svc : service) :
    Option (Listener × GoError) :=
  match keepLoop svc l.containers l [] with
  | none => none
  | some (l1, _, some err) => some (l1, some err)
  | some (l1, keep, none) =>
    some (l1.store.ForeachInstance serviceName
      (fun instanceName _ (l2 : Listener) =>
        if (lookup keep instanceName).isNone then
          { l2 with store := (l2.store.RemoveInstance serviceName instanceName).1 }
        else l2) l1)

/-- What the loop of `Run` receives: a container event, with the result of
`dc.InspectContainer` for it (`none` is an error), or a service change. -/
inductive Input where
  | event (Status ID : String) (inspected : Option Container)
  | change (Name : String) (Deleted : Bool)

/-- One turn of the loop of `Run`; `none` is a panic. -/
def handle (l : Listener) : Input → Option Listener
  | .event status id inspected =>
    if status = "start" then
      match inspected with
      | none => some l
      | some container =>
        (matchContainer { l with containers := assign l.containers id container } container).map
          fun r => r.1
    else if status = "die" then
      match lookup l.containers id with
      | none => some l
      | some container => some (deregister l container).1
    else some l
  | .change name deleted =>
    if deleted then some { l with services := remove l.services name }
    else
      match l.store.GetServiceDetails name with
      | none => some l
      | some svc =>
        let s : service := { name := name, details := svc }
        (redefineService { l with services := assign l.services name s } name s).map fun r => r.1

/-! ## Specification vocabulary and scenarios of the listener -/

/-- A record that `removeStale` removes: no container has its name and the listener
owns it. -/
def stale (l : Listener) (r : (String × String) × Instance) : Bool :=
  (lookup l.containers r.1.2).isNone && owns l r.2

/-- The first binding that the claim accepts. -/
def acceptable (hostIP : String) (b : PortBinding) : Bool :=
  b.HostIP == hostIP || b.HostIP == "" || b.HostIP == "0.0.0.0"

/-- The mapped address as the claim words it: the first acceptable binding listed
under the key of the port, its port parsed, or the sentinel. -/
def mappedAddressSpec (hostIP : String) (container : Container) (port : Int) : String × Int :=
  match lookup container.NetworkSettings.Ports (portKey port) with
  | none => ("", 0)
  | some bindings =>
    match bindings.find? (acceptable hostIP) with
    | none => ("", 0)
    | some b =>
      match Atoi b.HostPort with
      | some q => (hostIP, q)
      | none => ("", 0)

/-- A container of the image `ubuntu` with the environment entry `A=b=c` and the
port `80` bound on the host. -/
def webContainer : Container :=
  { ID := "cA",
    Config := { Image := "ubuntu", Env := ["A=b=c"], Labels := [] },
    NetworkSettings :=
      { IPAddress := "172.17.0.2", Ports := [("80/tcp", [⟨"10.1.1.1", "9090"⟩, ⟨"0.0.0.0", "8080"⟩])] } }

/-- A container with the environment entry `FOO` and no port bound. -/
def fooContainer : Container :=
  { ID := "cF",
    Config := { Image := "ubuntu:14.04", Env := ["FOO"], Labels := [] },
    NetworkSettings := { IPAddress := "172.17.0.3", Ports := [] } }

/-- An instance spec with an empty selector and the fixed port `80`. -/
def fixedSpec : InstanceSpec := { AddressSpec := ⟨"fixed", 80⟩, Selector := [] }

/-- An instance spec with an empty selector and the mapped port `80`. -/
def mappedSpec : InstanceSpec := { AddressSpec := ⟨"mapped", 80⟩, Selector := [] }

/-- The service `svcX`. -/
def svcX : Service := { InstanceSpecs := [("default", fixedSpec)] }

/-- An instance record owned by the host `owner`. -/
def recordOf (owner : String) : Instance :=
  { OwnerID := owner, Address := "172.17.0.2", Port := 80, Labels := [], InstanceGroup := "default" }

/-- A listener on the host `10.0.0.9` that knows the service `svcX` and the container
`cA`; the store holds `svcX/cA` and `svcX/cC` of this host and `svcX/cB` of another. -/
def sampleListener : Listener :=
  { store :=
      { services := [("svcX", svcX)],
        instances := [(("svcX", "cA"), recordOf "10.0.0.9"), (("svcX", "cB"), recordOf "10.0.0.7"),
          (("svcX", "cC"), recordOf "10.0.0.9")],
        calls := [] },
    services := [("svcX", { name := "svcX", details := svcX })],
    containers := [("cA", webContainer)],
    hostIP := "10.0.0.9" }

end agent

namespace pool

/-! ## Lemmas on `retryQueue` and `container/heap` -/

theorem Frame.refl (p : InstancePool) : Frame p p :=
  ⟨rfl, rfl, rfl, rfl, List.Perm.refl _, fun _ => rfl, fun _ => rfl, fun _ => rfl,
    fun _ _ => rfl, id⟩

theorem Frame.trans {p q r : InstancePool} (h1 : Frame p q) (h2 : Frame q r) : Frame p r where
  ready := h2.ready.trans h1.ready
  next := h2.next.trans h1.next
  timer := h2.timer.trans h1.timer
  stopped := h2.stopped.trans h1.stopped
  perm := h2.perm.trans h1.perm
  inst a := (h2.inst a).trans (h1.inst a)
  failures a := (h2.failures a).trans (h1.failures a)
  retryTime a := (h2.retryTime a).trans (h1.retryTime a)
  other a ha := by
    rw [h2.other a (fun h => ha (h1.perm.mem_iff.mp h)), h1.other a ha]
  idx h := h2.idx (h1.idx h)

theorem swap_perm (l : List Nat) (i j : Nat) (hi : i < l.length) (hj : j < l.length) :
    ((l.set i l[j]).set j l[i]).Perm l := by
  rw [List.perm_iff_count]
  intro x
  rw [List.count_set _ _ _ _ (by simpa using hj), List.count_set _ _ _ _ hi]
  simp only [List.getElem_set]
  have h1 := List.count_pos_iff.mpr (List.getElem_mem hi)
  have h2 := List.count_pos_iff.mpr (List.getElem_mem hj)
  by_cases hij : i = j
  · subst hij
    simp
    split <;> simp_all
  · simp [hij]
    by_cases hxi : l[i] = x <;> by_cases hxj : l[j] = x <;> simp_all

theorem RetryIdx.inj {p : InstancePool} (h : RetryIdx p) {k l a : Nat}
    (hk : p.retry[k]? = some a) (hl : p.retry[l]? = some a) : k = l := by
  rw [← h k a hk, ← h l a hl]

theorem setIndex_fields (m : Nat → PooledInstance) (a k x : Nat) :
    ((Function.update m a { m a with index := k }) x).Instance = (m x).Instance ∧
    ((Function.update m a { m a with index := k }) x).failures = (m x).failures ∧
    ((Function.update m a { m a with index := k }) x).retryTime = (m x).retryTime := by
  by_cases h : x = a
  · subst h; simp
  · simp [Function.update_noteq h]

theorem Swap_eq (p : InstancePool) (i j : Nat) (hi : i < p.retry.length)
    (hj : j < p.retry.length) :
    Swap p i j = some { p with
      retry := (p.retry.set i p.retry[j]).set j p.retry[i],
      mem := Function.update
        (Function.update p.mem p.retry[i] { p.mem p.retry[i] with index := j })
        p.retry[j]
        { (Function.update p.mem p.retry[i] { p.mem p.retry[i] with index := j }) p.retry[j]
            with index := i } } := by
  simp [Swap, List.getElem?_eq_getElem hi, List.getElem?_eq_getElem hj]

theorem Swap_spec (p : InstancePool) (i j : Nat) (hi : i < p.retry.length)
    (hj : j < p.retry.length) :
    ∃ q, Swap p i j = some q ∧ Frame p q ∧
      (∀ k, q.retry[k]? = if k = j then p.retry[i]? else if k = i then p.retry[j]?
        else p.retry[k]?) := by
  rw [Swap_eq p i j hi hj]
  refine ⟨_, rfl, ?_, ?_⟩
  · refine ⟨rfl, rfl, rfl, rfl, swap_perm _ _ _ hi hj, ?_, ?_, ?_, ?_, ?_⟩
    · intro a
      rw [(setIndex_fields _ _ _ a).1, (setIndex_fields _ _ _ a).1]
    · intro a
      rw [(setIndex_fields _ _ _ a).2.1, (setIndex_fields _ _ _ a).2.1]
    · intro a
      rw [(setIndex_fields _ _ _ a).2.2, (setIndex_fields _ _ _ a).2.2]
    · intro a ha
      have h1 : a ≠ p.retry[i] := fun h => ha (h ▸ List.getElem_mem hi)
      have h2 : a ≠ p.retry[j] := fun h => ha (h ▸ List.getElem_mem hj)
      simp [Function.update_apply, h1, h2]
    · intro h k a hk
      simp only [List.getElem?_set, List.length_set] at hk
      by_cases hkj : j = k
      · subst hkj
        simp [hj] at hk
        subst hk
        simp [Function.update_apply]
        split <;> simp_all
        rename_i h1
        exact h.inj (List.getElem?_eq_getElem hi) (by rw [List.getElem?_eq_getElem hj, h1])
      · by_cases hki : i = k
        · subst hki
          simp [hkj, hi] at hk
          subst hk
          simp [Function.update_apply]
        · simp [hkj, hki] at hk
          have h1 : a ≠ p.retry[i] := fun e =>
            hki (h.inj (List.getElem?_eq_getElem hi) (e ▸ hk))
          have h2 : a ≠ p.retry[j] := fun e =>
            hkj (h.inj (List.getElem?_eq_getElem hj) (e ▸ hk))
          simp [Function.update_apply, h1, h2]
          exact h k a hk
  · intro k
    simp only [List.getElem?_set, List.length_set]
    by_cases hkj : j = k
    · subst hkj; simp [hj, List.getElem?_eq_getElem hi]
    · by_cases hki : i = k
      · subst hki; simp [hkj, Ne.symm hkj, hi, List.getElem?_eq_getElem hj]
      · simp [hkj, hki, Ne.symm hkj, Ne.symm hki]

theorem keyAt_of_get {p : InstancePool} {k a : Nat} (h : p.retry[k]? = some a) :
    keyAt p k = (p.mem a).retryTime := by
  simp [keyAt, h]

theorem Less_eq (p : InstancePool) (i j : Nat) (hi : i < p.retry.length)
    (hj : j < p.retry.length) :
    Less p i j = some (decide (keyAt p i < keyAt p j)) := by
  simp [Less, keyAt, List.getElem?_eq_getElem hi, List.getElem?_eq_getElem hj, Before]

theorem keyAt_congr {p q : InstancePool} (hf : Frame p q) {k l : Nat}
    (h : q.retry[k]? = p.retry[l]?) : keyAt q k = keyAt p l := by
  unfold keyAt
  rw [h]
  cases p.retry[l]? with
  | none => rfl
  | some a => exact hf.retryTime a

theorem Swap_key {p q : InstancePool} {i j : Nat} (hf : Frame p q)
    (hr : ∀ k, q.retry[k]? = if k = j then p.retry[i]? else if k = i then p.retry[j]?
        else p.retry[k]?) (k : Nat) :
    keyAt q k = if k = j then keyAt p i else if k = i then keyAt p j else keyAt p k := by
  by_cases hkj : k = j
  · rw [if_pos hkj]; exact keyAt_congr hf (by rw [hr k, if_pos hkj])
  · rw [if_neg hkj]
    by_cases hki : k = i
    · rw [if_pos hki]; exact keyAt_congr hf (by rw [hr k, if_neg hkj, if_pos hki])
    · rw [if_neg hki]; exact keyAt_congr hf (by rw [hr k, if_neg hkj, if_neg hki])

theorem upLoop_spec (fuel : Nat) : ∀ (p : InstancePool) (j : Nat),
    j < p.retry.length → j < fuel →
    ∃ q, upLoop fuel p j = some q ∧ Frame p q ∧
      (∀ k, j < k → q.retry[k]? = p.retry[k]?) ∧
      (∀ n, j < n → UpPre p n j → HeapUpTo q n) := by
  induction fuel with
  | zero => intro p j _ hf; omega
  | succ fuel ih =>
    intro p j hj hf
    unfold upLoop
    by_cases hij : (j - 1) / 2 = j
    · simp only [hij, if_true]
      refine ⟨p, rfl, Frame.refl p, fun _ _ => rfl, ?_⟩
      intro n _ hpre k hk hkn
      exact hpre.1 k hk hkn (by omega)
    · simp only [hij, if_false]
      have hi : (j - 1) / 2 < p.retry.length := by omega
      rw [Less_eq p j _ hj hi]
      by_cases hlt : keyAt p j < keyAt p ((j - 1) / 2)
      · simp only [hlt, decide_True]
        obtain ⟨q1, hs, hf1, hr1⟩ := Swap_spec p ((j - 1) / 2) j hi hj
        have hk1 := Swap_key hf1 hr1
        have hlen : q1.retry.length = p.retry.length := hf1.perm.length_eq
        obtain ⟨q, hq, hf2, hr2, hh2⟩ := ih q1 ((j - 1) / 2) (by omega) (by omega)
        refine ⟨q, by simp [hs, hq], hf1.trans hf2, ?_, ?_⟩
        · intro k hk
          rw [hr2 k (by omega), hr1 k, if_neg (by omega), if_neg (by omega)]
        · intro n hn hpre
          apply hh2 n (by omega)
          constructor
          · intro k hk hkn hki
            rw [hk1 k, hk1 ((k - 1) / 2)]
            by_cases hkj : k = j
            · subst hkj
              simp [hij, Ne.symm hij]
              omega
            · by_cases hpj : (k - 1) / 2 = j
              · have := hpre.2 k hk hkn hpj
                simp [hkj, hki, hpj]
                exact this
              · by_cases hpi : (k - 1) / 2 = (j - 1) / 2
                · have := hpre.1 k hk hkn hkj
                  simp [hkj, hki, hpj, hpi]
                  rw [hpi] at this
                  omega
                · simp [hkj, hki, hpj, hpi]
                  exact hpre.1 k hk hkn hkj
          · intro c hc hcn hci
            rw [hk1 c, hk1 (((j - 1) / 2 - 1) / 2)]
            have hjpos : 0 < j := by omega
            by_cases hi0 : (j - 1) / 2 = 0
            · have : ((j - 1) / 2 - 1) / 2 = (j - 1) / 2 := by omega
              rw [this]
              simp [Ne.symm hij]
              by_cases hcj : c = j
              · subst hcj; simp; omega
              · have h1 := hpre.1 c hc hcn hcj
                rw [hci] at h1
                have : c ≠ (j - 1) / 2 := by omega
                simp [hcj, this]
                omega
            · have hpp1 : ((j - 1) / 2 - 1) / 2 ≠ j := by omega
              have hpp2 : ((j - 1) / 2 - 1) / 2 ≠ (j - 1) / 2 := by omega
              have h0 := hpre.1 ((j - 1) / 2) (by omega) (by omega) hij
              simp [hpp1, hpp2]
              by_cases hcj : c = j
              · subst hcj; simp; exact h0
              · have h1 := hpre.1 c hc hcn hcj
                rw [hci] at h1
                have : c ≠ (j - 1) / 2 := by omega
                simp [hcj, this]
                omega
      · simp only [hlt, decide_False]
        refine ⟨p, rfl, Frame.refl p, fun _ _ => rfl, ?_⟩
        intro n _ hpre k hk hkn
        by_cases hkj : k = j
        · subst hkj; omega
        · exact hpre.1 k hk hkn hkj

theorem downLoop_spec (fuel : Nat) : ∀ (p : InstancePool) (i n : Nat),
    n ≤ p.retry.length → 0 < fuel → n < i + fuel →
    ∃ q r, downLoop fuel p i n = some (q, r) ∧ Frame p q ∧ i ≤ r ∧ (r = i → q = p) ∧
      (∀ k, k < i ∨ n ≤ k → q.retry[k]? = p.retry[k]?) ∧
      (DownPre p n i →
        (∀ k, 0 < k → k < n → k ≠ r → keyAt q ((k - 1) / 2) ≤ keyAt q k) ∧
        (i < r → keyAt q ((r - 1) / 2) ≤ keyAt q r)) := by
  induction fuel with
  | zero => intro p i n _ hf; omega
  | succ fuel ih =>
    intro p i n hn _ hf
    unfold downLoop
    by_cases h1 : n ≤ 2 * i + 1
    · simp only [h1, if_true]
      refine ⟨p, i, rfl, Frame.refl p, le_refl _, fun _ => rfl, fun _ _ => rfl, ?_⟩
      intro hpre
      refine ⟨fun k hk hkn hki => hpre.1 k hk hkn hki (by omega), fun h => absurd h (by omega)⟩
    · simp only [h1, if_false]
      have hj1 : 2 * i + 1 < p.retry.length := by omega
      -- the smaller child
      obtain ⟨j, hj, hjn, hc, hmin⟩ : ∃ j, (j = 2 * i + 1 ∨ j = 2 * i + 2) ∧ j < n ∧
          (if 2 * i + 1 + 1 < n then Less p (2 * i + 1 + 1) (2 * i + 1) else some false)
            = some (decide (j = 2 * i + 2)) ∧
          (∀ c, c < n → (c = 2 * i + 1 ∨ c = 2 * i + 2) → keyAt p j ≤ keyAt p c) := by
        by_cases h2 : 2 * i + 1 + 1 < n
        · rw [if_pos h2, Less_eq p _ _ (by omega) hj1]
          by_cases hlt : keyAt p (2 * i + 1 + 1) < keyAt p (2 * i + 1)
          · refine ⟨2 * i + 2, Or.inr rfl, h2, by simp [hlt], ?_⟩
            intro c _ hc
            rcases hc with rfl | rfl
            · exact le_of_lt hlt
            · exact le_refl _
          · refine ⟨2 * i + 1, Or.inl rfl, by omega, by simp [hlt], ?_⟩
            intro c _ hc
            rcases hc with rfl | rfl
            · exact le_refl _
            · exact not_lt.mp hlt
        · rw [if_neg h2]
          refine ⟨2 * i + 1, Or.inl rfl, by omega, by simp, ?_⟩
          intro c hcn hc
          rcases hc with rfl | rfl
          · exact le_refl _
          · omega
      rw [hc]
      have hjeq : (if decide (j = 2 * i + 2) = true then 2 * i + 1 + 1 else 2 * i + 1) = j := by
        rcases hj with rfl | rfl <;> simp
      simp only [hjeq]
      have hjl : j < p.retry.length := by omega
      have hil : i < p.retry.length := by omega
      rw [Less_eq p j i hjl hil]
      by_cases hlt : keyAt p j < keyAt p i
      · simp only [hlt, decide_True]
        obtain ⟨q1, hs, hf1, hr1⟩ := Swap_spec p i j hil hjl
        have hk1 := Swap_key hf1 hr1
        have hlen : q1.retry.length = p.retry.length := hf1.perm.length_eq
        obtain ⟨q, r, hq, hf2, hjr, hq1, hr2, hh2⟩ :=
          ih q1 j n (by omega) (by omega) (by omega)
        refine ⟨q, r, by simp [hs, hq], hf1.trans hf2, by omega, fun h => absurd h (by omega),
          ?_, ?_⟩
        · intro k hk
          rw [hr2 k (by omega), hr1 k, if_neg (by omega), if_neg (by omega)]
        · intro hpre
          have hpre1 : DownPre q1 n j := by
            constructor
            · intro k hk hkn hkj hpj
              rw [hk1 k, hk1 ((k - 1) / 2)]
              by_cases hki : k = i
              · subst hki
                have h0 := hpre.2 hk j hjn (by omega)
                have e1 : (k - 1) / 2 ≠ j := by omega
                have e2 : (k - 1) / 2 ≠ k := by omega
                simp [hkj, e1, e2]
                exact h0
              · by_cases hpi : (k - 1) / 2 = i
                · have h0 := hmin k hkn (by omega)
                  have e3 : i ≠ j := by omega
                  simp [hkj, hki, hpj, hpi, e3]
                  exact h0
                · simp [hkj, hki, hpj, hpi]
                  exact hpre.1 k hk hkn hki hpi
            · intro _ c hcn hcj
              rw [hk1 c, hk1 ((j - 1) / 2)]
              have e0 : (j - 1) / 2 = i := by omega
              have e1 : c ≠ j := by omega
              have e2 : c ≠ i := by omega
              have e3 : i ≠ j := by omega
              have h0 := hpre.1 c (by omega) hcn e2 (by omega)
              rw [hcj] at h0
              simp [e0, e1, e2, e3]
              exact h0
          obtain ⟨ha, hb⟩ := hh2 hpre1
          refine ⟨ha, fun _ => ?_⟩
          by_cases hrj : r = j
          · have hqq : q = q1 := hq1 hrj
            subst hqq
            rw [hrj, hk1 j, hk1 ((j - 1) / 2)]
            have e0 : (j - 1) / 2 = i := by omega
            have e3 : i ≠ j := by omega
            simp [e0, e3]
            exact le_of_lt hlt
          · exact hb (by omega)
      · simp only [hlt, decide_False]
        refine ⟨p, i, rfl, Frame.refl p, le_refl _, fun _ => rfl, fun _ _ => rfl, ?_⟩
        intro hpre
        refine ⟨fun k hk hkn hki => ?_, fun h => absurd h (by omega)⟩
        by_cases hpi : (k - 1) / 2 = i
        · have h0 := hmin k hkn (by omega)
          rw [hpi]
          omega
        · exact hpre.1 k hk hkn hki hpi

theorem down_spec (p : InstancePool) (i n : Nat) (hn : n ≤ p.retry.length) :
    ∃ q r, heap.down p i n = some (q, decide (i < r)) ∧ Frame p q ∧ i ≤ r ∧ (r = i → q = p) ∧
      (∀ k, k < i ∨ n ≤ k → q.retry[k]? = p.retry[k]?) ∧
      (DownPre p n i →
        (∀ k, 0 < k → k < n → k ≠ r → keyAt q ((k - 1) / 2) ≤ keyAt q k) ∧
        (i < r → keyAt q ((r - 1) / 2) ≤ keyAt q r)) := by
  obtain ⟨q, r, h, rest⟩ := downLoop_spec (n + 1) p i n hn (by omega) (by omega)
  exact ⟨q, r, by simp [heap.down, h], rest⟩

theorem up_spec (p : InstancePool) (j : Nat) (hj : j < p.retry.length) :
    ∃ q, heap.up p j = some q ∧ Frame p q ∧
      (∀ k, j < k → q.retry[k]? = p.retry[k]?) ∧
      (∀ n, j < n → UpPre p n j → HeapUpTo q n) :=
  upLoop_spec (j + 1) p j hj (by omega)

theorem Pop_eq (s : InstancePool) (n a : Nat) (hlen : s.retry.length = n + 1)
    (ha : s.retry[n]? = some a) :
    Pop s = some (a, { s with retry := s.retry.dropLast }) := by
  have : s.retry.getLast? = some a := by
    rw [List.getLast?_eq_getElem?, hlen]; simpa using ha
  simp [Pop, this]

theorem Removed_of_frame {p qf : InstancePool} {n a : Nat} (hf : Frame p qf)
    (hlen : qf.retry.length = n + 1) (ha : qf.retry[n]? = some a)
    (hh : HeapOrd p → HeapUpTo qf n) :
    Removed p a { qf with retry := qf.retry.dropLast } := by
  have hlast : qf.retry.getLast? = some a := by
    rw [List.getLast?_eq_getElem?, hlen]; simpa using ha
  have hsplit : qf.retry.dropLast ++ [a] = qf.retry :=
    List.dropLast_append_getLast? a (by simp [hlast])
  have hget : ∀ k, k < n → qf.retry.dropLast[k]? = qf.retry[k]? := by
    intro k hk
    rw [List.getElem?_dropLast, if_pos (by omega)]
  have hkey : ∀ k, k < n →
      keyAt { qf with retry := qf.retry.dropLast } k = keyAt qf k := by
    intro k hk
    simp only [keyAt, hget k hk]
  refine ⟨hf.ready, hf.next, hf.timer, hf.stopped, ?_, hf.inst, hf.failures, hf.retryTime,
    hf.other, ?_, ?_⟩
  · refine hf.perm.symm.trans ?_
    show qf.retry.Perm (a :: qf.retry.dropLast)
    rw [← hsplit]
    simp only [List.dropLast_concat]
    exact List.perm_append_singleton a _
  · intro hidx k b hk
    have hq := hf.idx hidx
    have hk' : qf.retry.dropLast[k]? = some b := hk
    rw [List.getElem?_dropLast] at hk'
    split at hk'
    · exact hq k b hk'
    · exact absurd hk' (by simp)
  · intro hp k hk hkn
    have hl : qf.retry.dropLast.length = n := by simp [hlen]
    have hkn' : k < n := by
      have : k < qf.retry.dropLast.length := hkn
      omega
    rw [hkey k hkn', hkey ((k - 1) / 2) (by omega)]
    exact hh hp k hk hkn'

theorem heapRemove_spec (p : InstancePool) (i a : Nat) (hi : p.retry[i]? = some a) :
    ∃ q, heap.Remove p i = some (a, q) ∧ Removed p a q := by
  obtain ⟨hil, hia⟩ := List.getElem?_eq_some.mp hi
  unfold heap.Remove
  by_cases hni : p.retry.length - 1 = i
  · simp only [hni, ne_eq, not_true_eq_false, if_false]
    have hlen : p.retry.length = i + 1 := by omega
    rw [Pop_eq p i a hlen hi]
    exact ⟨_, rfl, Removed_of_frame (Frame.refl p) hlen hi (fun h k hk hkn => h k hk (by omega))⟩
  · simp only [ne_eq, hni, not_false_eq_true, if_true]
    obtain ⟨n, hn⟩ : ∃ n, p.retry.length = n + 1 := ⟨p.retry.length - 1, by omega⟩
    have hn1 : p.retry.length - 1 = n := by omega
    rw [hn1]
    have hin : i < n := by omega
    obtain ⟨q1, hs, hf1, hr1⟩ := Swap_spec p i n hil (by omega)
    have hk1 := Swap_key hf1 hr1
    have hlen1 : q1.retry.length = n + 1 := by rw [hf1.perm.length_eq, hn]
    have hpre1 : HeapOrd p → DownPre q1 n i := by
      intro hp
      constructor
      · intro k hk hkn hki hpi
        rw [hk1 k, hk1 ((k - 1) / 2)]
        have e1 : k ≠ n := by omega
        have e2 : (k - 1) / 2 ≠ n := by omega
        simp [e1, e2, hki, hpi]
        exact hp k hk (by omega)
      · intro hipos c hcn hci
        rw [hk1 c, hk1 ((i - 1) / 2)]
        have e1 : c ≠ n := by omega
        have e2 : c ≠ i := by omega
        have e3 : (i - 1) / 2 ≠ n := by omega
        have e4 : (i - 1) / 2 ≠ i := by omega
        simp [e1, e2, e3, e4]
        have h1 := hp i hipos (by omega)
        have h2 := hp c (by omega) (by omega)
        rw [hci] at h2
        omega
    obtain ⟨q2, r, hd, hf2, hir, hq2, hr2, hh2⟩ := down_spec q1 i n (by omega)
    have hlen2 : q2.retry.length = n + 1 := by rw [hf2.perm.length_eq, hlen1]
    have hlast1 : q1.retry[n]? = some a := by
      rw [hr1 n, if_pos rfl]; exact hi
    have hlast2 : q2.retry[n]? = some a := by
      rw [hr2 n (Or.inr (le_refl _))]; exact hlast1
    simp only [hs, Option.some_bind, hd]
    by_cases hmoved : i < r
    · simp only [hmoved, decide_True, if_true]
      rw [Pop_eq q2 n a hlen2 hlast2]
      refine ⟨_, rfl, Removed_of_frame (hf1.trans hf2) hlen2 hlast2 ?_⟩
      intro hp k hk hkn
      obtain ⟨ha, hb⟩ := hh2 (hpre1 hp)
      by_cases hkr : k = r
      · subst hkr; exact hb hmoved
      · exact ha k hk hkn hkr
    · simp only [hmoved, decide_False]
      have hri : r = i := by omega
      have hq21 : q2 = q1 := hq2 hri
      subst hq21
      obtain ⟨q3, hu, hf3, hr3, hh3⟩ := up_spec q2 i (by omega)
      have hlen3 : q3.retry.length = n + 1 := by rw [hf3.perm.length_eq, hlen1]
      have hlast3 : q3.retry[n]? = some a := by
        rw [hr3 n hin]; exact hlast1
      simp only [hu, Option.some_bind, Bool.false_eq_true, if_false]
      rw [Pop_eq q3 n a hlen3 hlast3]
      refine ⟨_, rfl, Removed_of_frame (hf1.trans hf3) hlen3 hlast3 ?_⟩
      intro hp
      apply hh3 n hin
      obtain ⟨ha, _⟩ := hh2 (hpre1 hp)
      constructor
      · intro k hk hkn hki
        exact ha k hk hkn (by omega)
      · intro c hc hcn hci
        by_cases hi0 : i = 0
        · have := ha c hc hcn (by omega)
          rw [hci] at this
          subst hi0
          exact this
        · exact (hpre1 hp).2 (by omega) c hcn hci

theorem heapPop_spec (p : InstancePool) (a : Nat) (h0 : p.retry[0]? = some a) :
    ∃ q, heap.Pop p = some (a, q) ∧ Removed p a q := by
  obtain ⟨hil, hia⟩ := List.getElem?_eq_some.mp h0
  unfold heap.Pop
  obtain ⟨n, hn⟩ : ∃ n, p.retry.length = n + 1 := ⟨p.retry.length - 1, by omega⟩
  have hn1 : p.retry.length - 1 = n := by omega
  rw [hn1]
  obtain ⟨q1, hs, hf1, hr1⟩ := Swap_spec p 0 n hil (by omega)
  have hk1 := Swap_key hf1 hr1
  have hlen1 : q1.retry.length = n + 1 := by rw [hf1.perm.length_eq, hn]
  obtain ⟨q2, r, hd, hf2, hir, hq2, hr2, hh2⟩ := down_spec q1 0 n (by omega)
  have hlen2 : q2.retry.length = n + 1 := by rw [hf2.perm.length_eq, hlen1]
  have hlast1 : q1.retry[n]? = some a := by
    rw [hr1 n, if_pos rfl]; exact h0
  have hlast2 : q2.retry[n]? = some a := by
    rw [hr2 n (Or.inr (le_refl _))]; exact hlast1
  simp only [hs, Option.some_bind, hd]
  rw [Pop_eq q2 n a hlen2 hlast2]
  refine ⟨_, rfl, Removed_of_frame (hf1.trans hf2) hlen2 hlast2 ?_⟩
  intro hp k hk hkn
  have hpre1 : DownPre q1 n 0 := by
    constructor
    · intro k hk hkn hki hpi
      rw [hk1 k, hk1 ((k - 1) / 2)]
      have e1 : k ≠ n := by omega
      have e2 : (k - 1) / 2 ≠ n := by omega
      simp [e1, e2, hki, hpi]
      exact hp k hk (by omega)
    · intro h; omega
  obtain ⟨ha, hb⟩ := hh2 hpre1
  by_cases hkr : k = r
  · subst hkr; exact hb hk
  · exact ha k hk hkn hkr

theorem Push_get (p : InstancePool) (x k : Nat) (hk : k < p.retry.length) :
    (Push p x).retry[k]? = p.retry[k]? := by
  simp [Push, List.getElem?_append_left hk]

theorem Push_key (p : InstancePool) (x k : Nat) (hk : k < p.retry.length) :
    keyAt (Push p x) k = keyAt p k := by
  unfold keyAt
  rw [Push_get p x k hk]
  cases p.retry[k]? with
  | none => rfl
  | some a => exact (setIndex_fields p.mem x p.retry.length a).2.2

theorem Push_retryIdx (p : InstancePool) (x : Nat) (h : RetryIdx p) (hx : x ∉ p.retry) :
    RetryIdx (Push p x) := by
  intro k a hk
  by_cases hkl : k < p.retry.length
  · rw [Push_get p x k hkl] at hk
    have hax : a ≠ x := fun e => hx (e ▸ List.getElem?_mem hk)
    simp only [Push, Function.update_noteq hax]
    exact h k a hk
  · have hk' : (p.retry ++ [x])[k]? = some a := hk
    rw [List.getElem?_append_right (by omega)] at hk'
    have hk0 : k - p.retry.length = 0 := by
      by_contra hne
      obtain ⟨m, hm⟩ : ∃ m, k - p.retry.length = m + 1 := ⟨k - p.retry.length - 1, by omega⟩
      rw [hm] at hk'
      simp at hk'
    rw [hk0] at hk'
    simp at hk'
    subst hk'
    simp only [Push, Function.update_same]
    omega

theorem heapPush_spec (p : InstancePool) (x : Nat) :
    ∃ q, heap.Push p x = some q ∧ Frame (Push p x) q ∧ (HeapOrd p → HeapOrd q) := by
  unfold heap.Push
  have hlen : (Push p x).retry.length = p.retry.length + 1 := by simp [Push]
  obtain ⟨q, hu, hf, _, hh⟩ := up_spec (Push p x) ((Push p x).retry.length - 1) (by omega)
  refine ⟨q, hu, hf, ?_⟩
  intro hp
  have hql : q.retry.length = p.retry.length + 1 := by rw [hf.perm.length_eq, hlen]
  unfold HeapOrd
  rw [hql]
  apply hh (p.retry.length + 1) (by omega)
  constructor
  · intro k hk hkn hkl
    rw [Push_key p x k (by omega), Push_key p x ((k - 1) / 2) (by omega)]
    exact hp k hk (by omega)
  · intro c hc hcn hcl
    omega

theorem initLoop_spec (n : Nat) : ∀ (k : Nat) (p : InstancePool), n ≤ p.retry.length →
    ∃ q, initLoop k p n = some q ∧ Frame p q := by
  intro k
  induction k with
  | zero => intro p _; exact ⟨p, rfl, Frame.refl p⟩
  | succ k ih =>
    intro p hn
    obtain ⟨q1, r, hd, hf1, _⟩ := down_spec p k n hn
    obtain ⟨q, hq, hf2⟩ := ih q1 (by rw [hf1.perm.length_eq]; exact hn)
    exact ⟨q, by simp [initLoop, hd, hq], hf1.trans hf2⟩

theorem Init_spec (p : InstancePool) : ∃ q, heap.Init p = some q ∧ Frame p q :=
  initLoop_spec p.retry.length _ p (le_refl _)

/-! ## Lemmas on the pool -/

theorem backoffDelay_small (f : Nat) (hf : f ≤ 33) : backoffDelay f = 2 ^ f * Second := by
  interval_cases f <;> rfl

theorem toInt64_ge (x : Int) : -(2 ^ 63) ≤ toInt64 x := by
  unfold toInt64; omega

theorem backoffDelay_ge (f : Nat) : -(2 ^ 63) ≤ backoffDelay f := toInt64_ge _

theorem toInt64_lt (x : Int) : toInt64 x < 2 ^ 63 := by
  unfold toInt64; omega

theorem backoffDelay_eq_iff (f : Nat) : backoffDelay f = 2 ^ f * Second ↔ f ≤ 33 := by
  constructor
  · intro h
    by_contra hf
    have hlt : backoffDelay f < 2 ^ 63 := toInt64_lt _
    have hpow : (2 : Int) ^ 34 ≤ 2 ^ f := pow_le_pow_right₀ (by norm_num) (by omega)
    have hs : (2 : Int) ^ 63 ≤ 2 ^ 34 * Second := by decide
    have : (2 : Int) ^ 34 * Second ≤ 2 ^ f * Second :=
      Int.mul_le_mul_of_nonneg_right hpow (by decide)
    omega
  · exact backoffDelay_small f

@[simp] theorem resetTimer_mem (p : InstancePool) (now : Int) : (resetTimer p now).mem = p.mem := by
  unfold resetTimer; split <;> [split; skip] <;> rfl

@[simp] theorem resetTimer_ready (p : InstancePool) (now : Int) :
    (resetTimer p now).ready = p.ready := by
  unfold resetTimer; split <;> [split; skip] <;> rfl

@[simp] theorem resetTimer_retry (p : InstancePool) (now : Int) :
    (resetTimer p now).retry = p.retry := by
  unfold resetTimer; split <;> [split; skip] <;> rfl

@[simp] theorem resetTimer_next (p : InstancePool) (now : Int) :
    (resetTimer p now).next = p.next := by
  unfold resetTimer; split <;> [split; skip] <;> rfl

@[simp] theorem resetTimer_stopped (p : InstancePool) (now : Int) :
    (resetTimer p now).stopped = p.stopped := by
  unfold resetTimer; split <;> [split; skip] <;> rfl

theorem swapRemove_perm (l : List Nat) (i x last : Nat) (hx : l[i]? = some x)
    (hlast : l.getLast? = some last) : l.Perm (x :: (l.set i last).dropLast) := by
  obtain ⟨hi, hix⟩ := List.getElem?_eq_some.mp hx
  have hlast' : (l.set i last).getLast? = some last := by
    rw [List.getLast?_eq_getElem?, List.length_set, List.getElem?_set]
    split
    · simp [hi]
    · rw [← List.getLast?_eq_getElem?]; exact hlast
  have hsplit : (l.set i last).dropLast ++ [last] = l.set i last :=
    List.dropLast_append_getLast? last (by simp [hlast'])
  rw [List.perm_iff_count]
  intro y
  have h1 := List.count_set last y l i hi
  rw [← hsplit, List.count_append] at h1
  have h2 : 0 < List.count x l := List.count_pos_iff.mpr (hix ▸ List.getElem_mem hi)
  rw [List.count_cons]
  simp only [hix, List.count_singleton, beq_iff_eq] at h1 ⊢
  by_cases hxy : x = y
  · subst hxy; simp at h1 ⊢; omega
  · simp [hxy] at h1 ⊢; omega

theorem keyAt_eq_of {p q : InstancePool} (hr : q.retry = p.retry)
    (hm : ∀ a ∈ p.retry, (q.mem a).retryTime = (p.mem a).retryTime) (k : Nat) :
    keyAt q k = keyAt p k := by
  unfold keyAt
  rw [hr]
  cases h : p.retry[k]? with
  | none => rfl
  | some a => exact hm a (List.getElem?_mem h)

theorem HeapOrd_of {p q : InstancePool} (hr : q.retry = p.retry)
    (hm : ∀ a ∈ p.retry, (q.mem a).retryTime = (p.mem a).retryTime) (h : HeapOrd p) :
    HeapOrd q := by
  intro k hk hkn
  rw [keyAt_eq_of hr hm, keyAt_eq_of hr hm]
  rw [hr] at hkn
  exact h k hk hkn

theorem RetryIdx_of {p q : InstancePool} (hr : q.retry = p.retry)
    (hm : ∀ a ∈ p.retry, (q.mem a).index = (p.mem a).index) (h : RetryIdx p) :
    RetryIdx q := by
  intro k a hk
  rw [hr] at hk
  rw [hm a (List.getElem?_mem hk)]
  exact h k a hk

theorem fail_spec (p : InstancePool) (x : Nat) (now1 now2 : Int)
    (hx : p.ready[(p.mem x).index]? = some x) :
    ∃ q, fail p x now1 now2 = some q ∧ Demoted p x now1 q := by
  obtain ⟨hi, _⟩ := List.getElem?_eq_some.mp hx
  obtain ⟨last, hlast⟩ : ∃ last, p.ready.getLast? = some last := by
    rw [List.getLast?_eq_getElem?]
    exact ⟨_, List.getElem?_eq_getElem (by omega)⟩
  let p2 := reschedule { p with ready := (p.ready.set (p.mem x).index last).dropLast } x now1
  obtain ⟨q3, hq3, hf, hh⟩ := heapPush_spec p2 x
  have hfail : fail p x now1 now2 = some (resetTimer q3 now2) := by
    unfold fail
    simp only [hlast, hi, if_true]
    show (heap.Push p2 x).map _ = _
    rw [hq3]; rfl
  refine ⟨_, hfail, ?_⟩
  have hp2r : p2.retry = p.retry := rfl
  have hp2x : (p2.mem x).failures = ((p.mem x).failures + 1) % 2 ^ 64 ∧
      (p2.mem x).retryTime = now1 + backoffDelay (p.mem x).failures ∧
      (p2.mem x).Instance = (p.mem x).Instance := by
    simp [p2, reschedule, Add]
  have hp2o : ∀ b, b ≠ x → p2.mem b = p.mem b := by
    intro b hb
    simp [p2, reschedule, Function.update_noteq hb]
  have hpush : ∀ b, ((Push p2 x).mem b).Instance = (p2.mem b).Instance ∧
      ((Push p2 x).mem b).failures = (p2.mem b).failures ∧
      ((Push p2 x).mem b).retryTime = (p2.mem b).retryTime :=
    fun b => setIndex_fields p2.mem x p2.retry.length b
  constructor
  · simp [hf.next]; rfl
  · simp [hf.stopped]; rfl
  · simp only [resetTimer_ready, hf.ready]
    exact swapRemove_perm p.ready _ x last hx hlast
  · simp only [resetTimer_retry]
    refine hf.perm.trans ?_
    show (p.retry ++ [x]).Perm (x :: p.retry)
    exact List.perm_append_singleton x _
  · simp only [resetTimer_mem, hf.failures, (hpush x).2.1, hp2x.1]
  · simp only [resetTimer_mem, hf.retryTime, (hpush x).2.2, hp2x.2.1]
  · intro b
    simp only [resetTimer_mem, hf.inst, (hpush b).1]
    by_cases hb : b = x
    · subst hb; rw [hp2x.2.2]
    · rw [hp2o b hb]
  · intro b hb
    simp only [resetTimer_mem, hf.failures, (hpush b).2.1, hp2o b hb]
  · intro b hb
    simp only [resetTimer_mem, hf.retryTime, (hpush b).2.2, hp2o b hb]
  · intro b hbr hb
    simp only [resetTimer_mem]
    rw [hf.other b (by
      show b ∉ p.retry ++ [x]
      simp [hbr, hb])]
    simp only [Push, Function.update_noteq hb]
    exact hp2o b hb
  · intro hidx hxr
    apply RetryIdx_of (p := q3) (resetTimer_retry _ _) (fun a _ => by simp)
    apply hf.idx
    apply Push_retryIdx p2 x _ hxr
    apply RetryIdx_of (p := p) hp2r _ hidx
    intro a ha
    rw [hp2o a (fun e => hxr (e ▸ ha))]
  · intro hheap hxr
    apply HeapOrd_of (p := q3) (resetTimer_retry _ _) (fun a _ => by simp)
    apply hh
    apply HeapOrd_of (p := p) hp2r _ hheap
    intro a ha
    rw [hp2o a (fun e => hxr (e ▸ ha))]
  · intro l hl
    rw [hlast] at hl
    cases hl
    simp only [resetTimer_ready, hf.ready]
    rfl

/-- The defect behind the stale index, in general: in a pool satisfying the pool
invariants, `Failed` on a ready instance that is not the last element of `ready`
returns a pool in which the element moved into its slot does not record its new
position. -/
theorem Failed_breaks_ReadyIdx (p : InstancePool) (r x : Nat) (now1 now2 : Int)
    (hinv : PoolInv p) (hx : p.ready[r]? = some x) (hr : r + 1 < p.ready.length) :
    ∃ q, Failed p x now1 now2 = some q ∧ ¬ ReadyIdx q := by
  have hnd := List.nodup_append.mp hinv.nodup
  have hxm : x ∈ p.ready := List.getElem?_mem hx
  have hrt := hinv.readyZero x hxm
  have hir := hinv.readyIdx r x hx
  obtain ⟨last, hlast⟩ : ∃ last, p.ready.getLast? = some last := by
    rw [List.getLast?_eq_getElem?]
    exact ⟨_, List.getElem?_eq_getElem (by omega)⟩
  have hlast2 : p.ready[p.ready.length - 1]? = some last := by
    rw [← List.getLast?_eq_getElem?]; exact hlast
  have hil := hinv.readyIdx _ last hlast2
  have hlx : last ≠ x := by
    intro e
    rw [e, hir] at hil
    omega
  have hlr : last ∉ p.retry := fun h => hnd.2.2 (List.getElem?_mem hlast2) h
  obtain ⟨q, hq, hd⟩ := fail_spec p x now1 now2 (by rw [hir]; exact hx)
  refine ⟨q, by simp [Failed, IsZero, hrt, hq], fun hidx => ?_⟩
  have hqr : q.ready[r]? = some last := by
    rw [hd.readyEq last hlast, hir, List.getElem?_dropLast, List.length_set,
      if_pos (by omega), List.getElem?_set_self (by omega)]
  have := hidx r last hqr
  rw [hd.other last hlr hlx, hil] at this
  omega

theorem Succeeded_ready (p : InstancePool) (x : Nat) (now : Int)
    (h : (p.mem x).retryTime = 0) :
    Succeeded p x now =
      some { p with mem := Function.update p.mem x { p.mem x with failures := 0 } } := by
  simp [Succeeded, IsZero, h]

theorem Succeeded_retry (p : InstancePool) (x : Nat) (now : Int)
    (hx : p.retry[(p.mem x).index]? = some x) (hrt : (p.mem x).retryTime ≠ 0)
    (hnd : p.retry.Nodup) :
    ∃ q, Succeeded p x now = some q ∧ Promoted p x q := by
  let p1 : InstancePool :=
    { p with mem := Function.update p.mem x { p.mem x with failures := 0 } }
  have hp1x : (p1.mem x).index = (p.mem x).index ∧ (p1.mem x).retryTime = (p.mem x).retryTime ∧
      (p1.mem x).Instance = (p.mem x).Instance := by simp [p1]
  have hp1o : ∀ b, b ≠ x → p1.mem b = p.mem b := fun b hb => by
    simp [p1, Function.update_noteq hb]
  have hp1r : p1.retry = p.retry := rfl
  have hp1i : ∀ b, (p1.mem b).index = (p.mem b).index ∧
      (p1.mem b).retryTime = (p.mem b).retryTime ∧
      (p1.mem b).Instance = (p.mem b).Instance := by
    intro b
    by_cases hb : b = x
    · subst hb; exact hp1x
    · rw [hp1o b hb]; exact ⟨rfl, rfl, rfl⟩
  obtain ⟨r, hr, hrem⟩ := heapRemove_spec p1 (p1.mem x).index x (by rw [hp1x.1]; exact hx)
  have hxr : x ∉ r.retry := by
    have h1 : (x :: r.retry).Nodup := (List.Perm.nodup_iff hrem.perm).mp hnd
    exact (List.nodup_cons.mp h1).1
  let q : InstancePool :=
    { resetTimer r now with
      mem := Function.update (resetTimer r now).mem x
        { (resetTimer r now).mem x with retryTime := 0, index := (resetTimer r now).ready.length },
      ready := (resetTimer r now).ready ++ [x] }
  refine ⟨q, ?_, ?_⟩
  · unfold Succeeded
    show (if (!IsZero (p1.mem x).retryTime) = true then _ else _) = _
    rw [hp1x.2.1]
    have : IsZero (p.mem x).retryTime = false := by simp [IsZero, hrt]
    simp only [this, Bool.not_false, if_true]
    show (heap.Remove p1 (p1.mem x).index).map _ = _
    rw [hr]
    rfl
  · constructor
    · simp [q, hrem.next, p1]
    · simp [q, hrem.stopped, p1]
    · simp [q, hrem.ready, p1]
    · have : q.retry = r.retry := by simp [q]
      rw [this]; exact hrem.perm
    · simpa using hxr
    · simp [hrem.failures, p1]
    · simp
    · simp [q, hrem.ready, p1]
    · intro b
      by_cases hb : b = x
      · subst hb; simp [hrem.inst, hp1x.2.2]
      · simp [Function.update_noteq hb, hrem.inst, hp1o b hb]
    · intro b hb
      simp [Function.update_noteq hb, hrem.failures, hp1o b hb]
    · intro b hb
      simp [Function.update_noteq hb, hrem.retryTime, hp1o b hb]
    · intro b hbr hb
      simp [Function.update_noteq hb, hrem.other b hbr, hp1o b hb]
    · intro hidx
      have h1 : RetryIdx r := hrem.idx (RetryIdx_of hp1r (fun a _ => (hp1i a).1) hidx)
      apply RetryIdx_of (p := r) (by simp) _ h1
      intro a ha
      have : a ≠ x := fun e => hxr (e ▸ ha)
      simp [Function.update_noteq this]
    · intro hheap
      have h1 : HeapOrd r := hrem.heap (HeapOrd_of hp1r (fun a _ => (hp1i a).2.1) hheap)
      apply HeapOrd_of (p := r) (by simp) _ h1
      intro a ha
      have : a ≠ x := fun e => hxr (e ▸ ha)
      simp [Function.update_noteq this]

theorem idx_singleton {l : List Nat} {m : Nat → PooledInstance} {x : Nat} (hl : l = [x])
    (hx : (m x).index = 0) : ∀ k a, l[k]? = some a → (m a).index = k := by
  intro k a h
  subst hl
  cases k with
  | zero => simp at h; subst h; exact hx
  | succ k => simp at h

theorem HeapUpTo_small (p : InstancePool) (n : Nat) (hn : n ≤ 1) : HeapUpTo p n := by
  intro k hk hkn; omega

theorem PoolInv_poolAB : PoolInv poolAB where
  nodup := by decide
  readyIdx := idx_singleton (x := 1) rfl rfl
  retryIdx := idx_singleton (x := 0) rfl rfl
  readyZero := by intro a ha; simp [poolAB] at ha; subst ha; rfl
  retrySet := by intro a ha; simp [poolAB] at ha; subst ha; decide
  heap := HeapUpTo_small _ _ (by simp [poolAB])

theorem mem_idx {l : List Nat} {x : Nat} (h : x ∈ l) : ∃ k : Nat, l[k]? = some x :=
  List.mem_iff_getElem?.mp h

theorem fail_mem (p : InstancePool) (x : Nat) (now1 now2 : Int) (q : InstancePool)
    (h : fail p x now1 now2 = some q) :
    (q.mem x).retryTime = now1 + backoffDelay (p.mem x).failures ∧
    (q.mem x).failures = ((p.mem x).failures + 1) % 2 ^ 64 := by
  unfold fail at h
  cases hl : p.ready.getLast? with
  | none => simp [hl] at h
  | some last =>
    simp only [hl] at h
    split at h
    · obtain ⟨q3, hq3, hf, _⟩ := heapPush_spec
        (reschedule { p with ready := (p.ready.set (p.mem x).index last).dropLast } x now1) x
      rw [hq3] at h
      simp at h
      subst h
      have hpush := setIndex_fields
        (reschedule { p with ready := (p.ready.set (p.mem x).index last).dropLast } x now1).mem x
        (reschedule { p with ready := (p.ready.set (p.mem x).index last).dropLast } x now1).retry.length x
      constructor
      · rw [resetTimer_mem, hf.retryTime]
        exact hpush.2.2.trans (by simp [reschedule, Add])
      · rw [resetTimer_mem, hf.failures]
        exact hpush.2.1.trans (by simp [reschedule])
    · simp at h

theorem unixEpoch_gt : (2 : Int) ^ 63 < unixEpoch := by decide

theorem PoolInv_single (p : InstancePool) (x : Nat) (hr : p.ready = [x]) (hq : p.retry = [])
    (hi : (p.mem x).index = 0) (ht : (p.mem x).retryTime = 0) : PoolInv p where
  nodup := by simp [hr, hq]
  readyIdx := idx_singleton hr hi
  retryIdx := by intro k a h; simp [hq] at h
  readyZero := by intro a ha; simp [hr] at ha; subst ha; exact ht
  retrySet := by intro a ha; simp [hq] at ha
  heap := HeapUpTo_small _ _ (by simp [hq])

theorem PickInstance_ready (p : InstancePool) (r x : Nat) (now1 now2 : Int)
    (hx : p.ready[r]? = some x) :
    PickInstance p r now1 now2 =
      if (p.mem x).failures ≠ 0 then (fail p x now1 now2).map fun q => (some x, q)
      else some (some x, p) := by
  obtain ⟨hr, _⟩ := List.getElem?_eq_some.mp hx
  unfold PickInstance
  have h0 : p.ready.length ≠ 0 := by omega
  simp only [h0, ne_eq, not_false_eq_true, if_true, Nat.mod_eq_of_lt hr, hx]

theorem PoolInv_poolSuspect : PoolInv poolSuspect where
  nodup := by decide
  readyIdx := by
    intro k a h
    match k with
    | 0 => simp [poolSuspect] at h; subst h; rfl
    | 1 => simp [poolSuspect] at h; subst h; rfl
    | k + 2 => simp [poolSuspect] at h
  retryIdx := by intro k a h; simp [poolSuspect] at h
  readyZero := by
    intro a ha
    simp [poolSuspect] at ha
    rcases ha with rfl | rfl <;> rfl
  retrySet := by intro a ha; simp [poolSuspect] at ha
  heap := HeapUpTo_small _ _ (by simp [poolSuspect])

theorem processLoop_single (p : InstancePool) (a : Nat) (now : Int) (hr : p.retry = [a])
    (hdue : (p.mem a).retryTime ≤ now) :
    ∃ q, processLoop 2 p now = some q ∧ q.ready = p.ready ++ [a] ∧ q.retry = [] ∧
      (q.mem a).failures = (p.mem a).failures ∧ (q.mem a).retryTime = 0 ∧
      (q.mem a).index = p.ready.length := by
  obtain ⟨r, hpop, hrem⟩ := heapPop_spec p a (by simp [hr])
  have hrr : r.retry = [] := by
    have := hrem.perm.length_eq
    simp [hr] at this
    exact this
  have hnb : Before now (p.mem a).retryTime = false := by simp [Before]; omega
  refine ⟨_, by simp [processLoop, hr, hnb, hpop, hrr]; rfl, ?_, ?_, ?_, ?_, ?_⟩
  · simp [hrem.ready]
  · rfl
  · simp [hrem.failures]
  · simp
  · simp [hrem.ready]

theorem mem_keys_mapDelete (m : WantMap) (k n : String) :
    n ∈ keys (mapDelete m k) ↔ n ∈ keys m ∧ n ≠ k := by
  simp only [keys, mapDelete, List.mem_map, List.mem_filter]
  constructor
  · rintro ⟨e, ⟨he, hne⟩, rfl⟩
    exact ⟨⟨e, he, rfl⟩, by simpa using hne⟩
  · rintro ⟨⟨e, he, rfl⟩, hne⟩
    exact ⟨e, ⟨he, by simpa using hne⟩, rfl⟩

theorem nodup_keys_mapDelete (m : WantMap) (k : String) (h : (keys m).Nodup) :
    (keys (mapDelete m k)).Nodup := by
  unfold keys mapDelete
  exact (List.filter_sublist m).map _ |>.nodup h

theorem mem_keys_mapSet (m : WantMap) (k : String) (v : IPPort) (n : String) :
    n ∈ keys (mapSet m k v) ↔ n ∈ keys m ∨ n = k := by
  have h := mem_keys_mapDelete m k n
  simp only [keys, mapDelete] at h
  simp only [keys, mapSet, List.map_append, List.mem_append, h, List.map_cons, List.map_nil,
    List.mem_singleton]
  constructor
  · rintro (⟨h1, _⟩ | h1)
    · exact Or.inl h1
    · exact Or.inr h1
  · rintro (h1 | h1)
    · by_cases hk : n = k
      · exact Or.inr hk
      · exact Or.inl ⟨h1, hk⟩
    · exact Or.inr h1

theorem nodup_keys_mapSet (m : WantMap) (k : String) (v : IPPort) (h : (keys m).Nodup) :
    (keys (mapSet m k v)).Nodup := by
  have h1 := nodup_keys_mapDelete m k h
  have h2 := mem_keys_mapDelete m k k
  simp only [keys, mapDelete] at h1 h2
  simp only [keys, mapSet, List.map_append, List.map_cons, List.map_nil]
  rw [List.nodup_append]
  refine ⟨h1, List.nodup_singleton _, ?_⟩
  intro a ha hb
  rw [List.mem_singleton] at hb
  subst hb
  exact (h2.mp ha).2 rfl

theorem mapFound_iff (m : WantMap) (k : String) : mapFound m k = true ↔ k ∈ keys m := by
  simp only [mapFound, keys, List.any_eq_true, List.mem_map, beq_iff_eq]

theorem wantInsts_fold (S : List Instance) : ∀ m : WantMap, (keys m).Nodup →
    (keys (S.foldl (fun m inst => mapSet m inst.Name inst.Address) m)).Nodup ∧
    ∀ n, n ∈ keys (S.foldl (fun m inst => mapSet m inst.Name inst.Address) m) ↔
      n ∈ keys m ∨ n ∈ S.map fun i => i.Name := by
  induction S with
  | nil => intro m h; simp [h]
  | cons i S ih =>
    intro m h
    obtain ⟨h1, h2⟩ := ih (mapSet m i.Name i.Address) (nodup_keys_mapSet m _ _ h)
    refine ⟨h1, fun n => ?_⟩
    rw [List.foldl_cons, h2 n, mem_keys_mapSet]
    simp only [List.map_cons, List.mem_cons]
    tauto

theorem wantInsts_spec (S : List Instance) :
    (keys (wantInsts S)).Nodup ∧
    ∀ n, n ∈ keys (wantInsts S) ↔ n ∈ S.map fun i => i.Name := by
  obtain ⟨h1, h2⟩ := wantInsts_fold S [] (by simp [keys])
  exact ⟨h1, fun n => by rw [wantInsts, h2 n]; simp [keys]⟩

theorem keepOne_cases (s : KeepState) (x : Nat) :
    (mapFound s.want (s.mem x).Instance.Name = false ∧ keepOne s x = s) ∨
    (mapFound s.want (s.mem x).Instance.Name = true ∧
      (kept (keepOne s x)).Perm (x :: kept s) ∧
      (keepOne s x).want = mapDelete s.want (s.mem x).Instance.Name ∧
      ∀ a, ((keepOne s x).mem a).Instance = (s.mem a).Instance ∧
        ((keepOne s x).mem a).failures = (s.mem a).failures ∧
        ((keepOne s x).mem a).retryTime = (s.mem a).retryTime) := by
  unfold keepOne
  cases hf : mapFound s.want (s.mem x).Instance.Name with
  | false => left; simp
  | true =>
    right
    refine ⟨rfl, ?_⟩
    simp only [if_true]
    split
    · refine ⟨?_, rfl, fun a => setIndex_fields s.mem x s.ready.length a⟩
      simp only [kept]
      rw [List.append_assoc]
      exact (List.perm_middle).trans (List.Perm.refl _)
    · refine ⟨?_, rfl, fun a => setIndex_fields s.mem x s.retry.length a⟩
      simp only [kept]
      rw [← List.append_assoc]
      exact List.perm_append_singleton x _

theorem keepOne_inv {m0 : Nat → PooledInstance} {W : List String} {seen : List Nat}
    {s : KeepState} (h : KeepInv m0 W seen s) (x : Nat) :
    KeepInv m0 W (seen ++ [x]) (keepOne s x) := by
  rcases keepOne_cases s x with ⟨hf, he⟩ | ⟨hf, hperm, hwant, hmem⟩
  · rw [he]
    have hnf : (m0 x).Instance.Name ∉ keys s.want := by
      rw [← h.inst x, ← mapFound_iff, hf]; simp
    refine ⟨h.inst, h.failures, h.retryTime, h.wantNodup, h.namesNodup, h.disjoint, h.cover,
      fun a ha => List.mem_append_left _ (h.sub a ha), ?_⟩
    intro a ha
    rcases List.mem_append.mp ha with ha | ha
    · exact h.done a ha
    · rw [List.mem_singleton] at ha; subst ha; exact hnf
  · have hin : (m0 x).Instance.Name ∈ keys s.want := by
      rw [← h.inst x, ← mapFound_iff, hf]
    have hname : (s.mem x).Instance.Name = (m0 x).Instance.Name := by rw [h.inst x]
    have hnames : ((kept (keepOne s x)).map fun a => (m0 a).Instance.Name).Perm
        ((m0 x).Instance.Name :: (kept s).map fun a => (m0 a).Instance.Name) := by
      have := hperm.map fun a => (m0 a).Instance.Name
      simpa using this
    refine ⟨fun a => (hmem a).1.trans (h.inst a), fun a => (hmem a).2.1.trans (h.failures a),
      fun a => (hmem a).2.2.trans (h.retryTime a), ?_, ?_, ?_, ?_, ?_, ?_⟩
    · rw [hwant]; exact nodup_keys_mapDelete _ _ h.wantNodup
    · rw [List.Perm.nodup_iff hnames]
      exact List.nodup_cons.mpr ⟨h.disjoint _ hin, h.namesNodup⟩
    · intro n hn
      rw [hwant, mem_keys_mapDelete, hname] at hn
      rw [hnames.mem_iff, List.mem_cons]
      rintro (h1 | h1)
      · exact hn.2 h1
      · exact h.disjoint n hn.1 h1
    · intro n
      rw [h.cover n, hwant, mem_keys_mapDelete, hname, hnames.mem_iff, List.mem_cons]
      constructor
      · rintro (h1 | h1)
        · by_cases hk : n = (m0 x).Instance.Name
          · exact Or.inr (Or.inl hk)
          · exact Or.inl ⟨h1, hk⟩
        · exact Or.inr (Or.inr h1)
      · rintro (⟨h1, _⟩ | h1 | h1)
        · exact Or.inl h1
        · exact Or.inl (h1 ▸ hin)
        · exact Or.inr h1
    · intro a ha
      rw [hperm.mem_iff, List.mem_cons] at ha
      rcases ha with rfl | ha
      · simp
      · exact List.mem_append_left _ (h.sub a ha)
    · intro a ha
      rw [hwant, mem_keys_mapDelete, hname]
      rintro ⟨h1, h2⟩
      rcases List.mem_append.mp ha with ha | ha
      · exact h.done a ha h1
      · rw [List.mem_singleton] at ha; subst ha; exact h2 rfl

theorem keepInsts_inv {m0 : Nat → PooledInstance} {W : List String} (insts : List Nat) :
    ∀ {seen : List Nat} {s : KeepState}, KeepInv m0 W seen s →
      KeepInv m0 W (seen ++ insts) (keepInsts s insts) := by
  induction insts with
  | nil => intro seen s h; simpa [keepInsts] using h
  | cons x insts ih =>
    intro seen s h
    have := ih (keepOne_inv h x)
    simpa [keepInsts] using this

theorem addNew_spec (l : List (String × IPPort)) :
    ∀ (mem : Nat → PooledInstance) (next : Nat) (ready : List Nat),
      (addNew l mem next ready).2.1 = next + l.length ∧
      (addNew l mem next ready).2.2 = ready ++ List.range' next l.length ∧
      (∀ a, a < next → (addNew l mem next ready).1 a = mem a) ∧
      (List.range' next l.length).map
        (fun a => ((addNew l mem next ready).1 a).Instance.Name) = keys l := by
  induction l with
  | nil => intro mem next ready; simp [addNew, keys]
  | cons e rest ih =>
    intro mem next ready
    obtain ⟨name, addr⟩ := e
    obtain ⟨h1, h2, h3, h4⟩ := ih
      (Function.update mem next
        { Instance := { Name := name, Address := addr }, index := ready.length,
          failures := 0, retryTime := 0 })
      (next + 1) (ready ++ [next])
    simp only [addNew]
    refine ⟨by rw [h1]; simp; omega, ?_, ?_, ?_⟩
    · rw [h2]; simp [List.range'_succ]
    · intro a ha
      rw [h3 a (by omega), Function.update_noteq (by omega)]
    · simp only [List.length_cons, List.range'_succ, List.map_cons, keys]
      rw [h3 next (by omega), Function.update_same]
      simp only [keys] at h4
      rw [h4]

theorem UpdateInstances_spec (p : InstancePool) (S : List Instance)
    (order : WantMap → WantMap) (now : Int) (horder : ∀ m, (order m).Perm m)
    (halloc : ∀ a ∈ p.ready ++ p.retry, a < p.next) :
    ∃ q, UpdateInstances p S order now = some q ∧
      (names q).Nodup ∧ (∀ n, n ∈ names q ↔ n ∈ S.map fun i => i.Name) ∧
      (∀ x ∈ p.ready ++ p.retry, (p.mem x).Instance.Name ∈ (S.map fun i => i.Name) →
        ∃ y ∈ q.ready ++ q.retry, y ∈ p.ready ++ p.retry ∧
          (p.mem y).Instance.Name = (p.mem x).Instance.Name ∧
          (q.mem y).Instance = (p.mem y).Instance ∧
          (q.mem y).failures = (p.mem y).failures ∧
          (q.mem y).retryTime = (p.mem y).retryTime) := by
  obtain ⟨hw1, hw2⟩ := wantInsts_spec S
  let s0 : KeepState := { mem := p.mem, want := wantInsts S, ready := [], retry := [] }
  have h0 : KeepInv p.mem (keys (wantInsts S)) [] s0 :=
    ⟨fun _ => rfl, fun _ => rfl, fun _ => rfl, hw1, by simp [kept, s0], by simp [kept, s0],
      by simp [kept, s0], by simp [kept, s0], by simp⟩
  have h2 : KeepInv p.mem (keys (wantInsts S)) (p.ready ++ p.retry)
      (keepInsts (keepInsts s0 p.ready) p.retry) := by
    have := keepInsts_inv p.retry (keepInsts_inv p.ready h0)
    simpa using this
  generalize hs2 : keepInsts (keepInsts s0 p.ready) p.retry = s2 at h2
  obtain ⟨a1, a2, a3, a4⟩ := addNew_spec (order s2.want) s2.mem p.next s2.ready
  generalize hr : addNew (order s2.want) s2.mem p.next s2.ready = r at a1 a2 a3 a4
  let p1 : InstancePool :=
    { p with mem := r.1, next := r.2.1, ready := r.2.2, retry := s2.retry }
  obtain ⟨q2, hq2, hf⟩ := Init_spec p1
  have hU : UpdateInstances p S order now = some (resetTimer q2 now) := by
    unfold UpdateInstances
    simp only []
    show (heap.Init { p with
      mem := (addNew (order (keepInsts (keepInsts s0 p.ready) p.retry).want)
        (keepInsts (keepInsts s0 p.ready) p.retry).mem p.next
        (keepInsts (keepInsts s0 p.ready) p.retry).ready).1,
      next := (addNew (order (keepInsts (keepInsts s0 p.ready) p.retry).want)
        (keepInsts (keepInsts s0 p.ready) p.retry).mem p.next
        (keepInsts (keepInsts s0 p.ready) p.retry).ready).2.1,
      ready := (addNew (order (keepInsts (keepInsts s0 p.ready) p.retry).want)
        (keepInsts (keepInsts s0 p.ready) p.retry).mem p.next
        (keepInsts (keepInsts s0 p.ready) p.retry).ready).2.2,
      retry := (keepInsts (keepInsts s0 p.ready) p.retry).retry }).map _ = _
    rw [hs2, hr]
    show (heap.Init p1).map _ = _
    rw [hq2]; rfl
  -- names of the kept instances are read in the original memory
  have hkeptlt : ∀ a ∈ kept s2, a < p.next := fun a ha => halloc a (h2.sub a ha)
  have hname : ∀ a ∈ kept s2, (r.1 a).Instance.Name = (p.mem a).Instance.Name := by
    intro a ha
    rw [a3 a (hkeptlt a ha), h2.inst a]
  have hkperm : (keys (order s2.want)).Perm (keys s2.want) := (horder s2.want).map _
  -- the names of the pool before `heap.Init`
  have hnames1 : (names p1).Perm
      (((kept s2).map fun a => (p.mem a).Instance.Name) ++ keys s2.want) := by
    have e1 : names p1 = (s2.ready.map fun a => (r.1 a).Instance.Name) ++
        ((List.range' p.next (order s2.want).length).map fun a => (r.1 a).Instance.Name) ++
        (s2.retry.map fun a => (r.1 a).Instance.Name) := by
      simp [names, p1, a2]
    rw [e1, a4]
    have e2 : (s2.ready.map fun a => (r.1 a).Instance.Name) =
        s2.ready.map fun a => (p.mem a).Instance.Name :=
      List.map_congr_left fun a ha => hname a (List.mem_append_left _ ha)
    have e3 : (s2.retry.map fun a => (r.1 a).Instance.Name) =
        s2.retry.map fun a => (p.mem a).Instance.Name :=
      List.map_congr_left fun a ha => hname a (List.mem_append_right _ ha)
    rw [e2, e3]
    simp only [kept, List.map_append]
    rw [List.append_assoc, List.append_assoc]
    refine List.Perm.append_left _ ?_
    exact (List.perm_append_comm).trans (List.Perm.append_left _ hkperm)
  have hnames2 : (names (resetTimer q2 now)).Perm (names p1) := by
    simp only [names, resetTimer_ready, resetTimer_retry, resetTimer_mem, hf.ready]
    have e : ∀ l : List Nat, (l.map fun a => (q2.mem a).Instance.Name) =
        l.map fun a => (p1.mem a).Instance.Name :=
      fun l => List.map_congr_left fun a _ => by rw [hf.inst a]
    rw [e]
    exact (List.Perm.append_left _ hf.perm).map _
  have hall := hnames2.trans hnames1
  refine ⟨_, hU, ?_, ?_, ?_⟩
  · rw [List.Perm.nodup_iff hall, List.nodup_append]
    exact ⟨h2.namesNodup, h2.wantNodup, fun n h1 h3 => h2.disjoint n h3 h1⟩
  · intro n
    rw [hall.mem_iff, List.mem_append, ← hw2 n, h2.cover n]
    tauto
  · intro x hx hxS
    have hxW : (p.mem x).Instance.Name ∈ keys (wantInsts S) := (hw2 _).mpr hxS
    have := (h2.cover _).mp hxW
    rcases this with h | h
    · exact absurd h (h2.done x hx)
    · obtain ⟨y, hy, hyn⟩ := List.mem_map.mp h
      have hy1 : y ∈ p1.ready ++ p1.retry := by
        simp only [p1, a2]
        simp only [kept] at hy
        rcases List.mem_append.mp hy with h | h
        · exact List.mem_append_left _ (List.mem_append_left _ h)
        · exact List.mem_append_right _ h
      have hy2 : y ∈ (resetTimer q2 now).ready ++ (resetTimer q2 now).retry := by
        simp only [resetTimer_ready, resetTimer_retry, hf.ready]
        rcases List.mem_append.mp hy1 with h | h
        · exact List.mem_append_left _ h
        · exact List.mem_append_right _ (hf.perm.mem_iff.mpr h)
      have hy3 : p1.mem y = r.1 y := rfl
      have hy4 := a3 y (hkeptlt y hy)
      refine ⟨y, hy2, h2.sub y hy, hyn, ?_, ?_, ?_⟩
      · rw [resetTimer_mem, hf.inst, hy3, hy4, h2.inst]
      · rw [resetTimer_mem, hf.failures, hy3, hy4, h2.failures]
      · rw [resetTimer_mem, hf.retryTime, hy3, hy4, h2.retryTime]

theorem HeapOrd_root_le (p : InstancePool) (h : HeapOrd p) :
    ∀ k, k < p.retry.length → keyAt p 0 ≤ keyAt p k := by
  intro k
  induction k using Nat.strong_induction_on with
  | _ k ih =>
    intro hk
    by_cases h0 : k = 0
    · subst h0; exact le_refl _
    · have h1 := h k (by omega) hk
      have h2 := ih ((k - 1) / 2) (by omega) (by omega)
      omega

theorem RetryIdx.nodup {p : InstancePool} (h : RetryIdx p) : p.retry.Nodup := by
  rw [List.nodup_iff_injective_get]
  intro i j hij
  apply Fin.ext
  have hi : p.retry[i.1]? = some (p.retry.get i) := by
    rw [List.getElem?_eq_getElem i.2]; rfl
  have hj : p.retry[j.1]? = some (p.retry.get i) := by
    rw [List.getElem?_eq_getElem j.2, hij]; rfl
  exact h.inj hi hj

theorem processLoop_spec (now : Int) (fuel : Nat) : ∀ p : InstancePool,
    p.retry.length < fuel → RetryIdx p → HeapOrd p →
    ∃ q, processLoop fuel p now = some q ∧ Processed p now q := by
  induction fuel with
  | zero => intro p h; omega
  | succ fuel ih =>
    intro p hlen hidx hheap
    unfold processLoop
    cases hr : p.retry with
    | nil =>
      refine ⟨p, rfl, rfl, rfl, rfl, ⟨[], by simp, by simp [hr], by simp⟩, ?_, fun _ => rfl,
        fun _ => rfl, fun _ _ => rfl, hidx, hheap⟩
      intro x hx
      simp [hr] at hx
    | cons a rest =>
      have hget0 : p.retry[0]? = some a := by simp [hr]
      have ha : a ∈ p.retry := by simp [hr]
      have hk0 : keyAt p 0 = (p.mem a).retryTime := keyAt_of_get hget0
      by_cases hdue : (p.mem a).retryTime ≤ now
      · have hb : Before now (p.mem a).retryTime = false := by simp [Before]; omega
        simp only [hb, Bool.not_false, if_true]
        obtain ⟨r, hpop, hrem⟩ := heapPop_spec p a hget0
        have hnd : (a :: r.retry).Nodup := (List.Perm.nodup_iff hrem.perm).mp hidx.nodup
        have har : a ∉ r.retry := (List.nodup_cons.mp hnd).1
        let p1 : InstancePool :=
          { r with
            mem := Function.update r.mem a
              { r.mem a with retryTime := 0, index := r.ready.length },
            ready := r.ready ++ [a] }
        have hp1o : ∀ x, x ≠ a → p1.mem x = r.mem x := fun x hx => by
          simp [p1, Function.update_noteq hx]
        have hp1a : (p1.mem a).retryTime = 0 ∧ (p1.mem a).failures = (r.mem a).failures ∧
            (p1.mem a).Instance = (r.mem a).Instance := by simp [p1]
        have hp1r : p1.retry = r.retry := rfl
        have hidx1 : RetryIdx p1 :=
          RetryIdx_of hp1r (fun x hx => by rw [hp1o x (fun e => har (e ▸ hx))])
            (hrem.idx hidx)
        have hheap1 : HeapOrd p1 :=
          HeapOrd_of hp1r (fun x hx => by rw [hp1o x (fun e => har (e ▸ hx))])
            (hrem.heap hheap)
        have hlen1 : p1.retry.length < fuel := by
          have := hrem.perm.length_eq
          simp only [List.length_cons] at this
          rw [hp1r]; omega
        obtain ⟨q, hq, hP⟩ := ih p1 hlen1 hidx1 hheap1
        obtain ⟨l1, hl1, hperm1, hall1⟩ := hP.popped
        have hsub : ∀ x, x ∈ p1.retry → x ≠ a ∧ x ∈ p.retry := by
          intro x hx
          rw [hp1r] at hx
          exact ⟨fun e => har (e ▸ hx), hrem.perm.mem_iff.mpr (List.mem_cons_of_mem _ hx)⟩
        have hrt1 : ∀ x, x ∈ p1.retry → (p1.mem x).retryTime = (p.mem x).retryTime := by
          intro x hx
          rw [hp1o x (hsub x hx).1, hrem.retryTime]
        refine ⟨q, by simp only [hpop, Option.some_bind]; exact hq, ?_⟩
        refine ⟨by rw [hP.next]; exact hrem.next, by rw [hP.stopped]; exact hrem.stopped,
          by rw [hP.timer]; exact hrem.timer, ⟨a :: l1, ?_, ?_, ?_⟩, ?_, ?_, ?_, ?_, hP.idx,
          hP.heap⟩
        · rw [hl1]
          show (r.ready ++ [a]) ++ l1 = p.ready ++ a :: l1
          rw [hrem.ready]; simp
        · refine hrem.perm.trans ?_
          show (a :: r.retry).Perm (a :: (l1 ++ q.retry))
          exact List.Perm.cons a hperm1
        · intro x hx
          rcases List.mem_cons.mp hx with rfl | hx
          · refine ⟨hdue, ?_⟩
            rw [hP.other x har]; exact hp1a.1
          · have hx1 : x ∈ p1.retry := hperm1.mem_iff.mpr (List.mem_append_left _ hx)
            have := hall1 x hx
            rw [hrt1 x hx1] at this
            exact this
        · intro x hx
          have hx1 : x ∈ p1.retry := hperm1.mem_iff.mpr (List.mem_append_right _ hx)
          have := hP.late x hx
          rw [hrt1 x hx1] at this
          exact this
        · intro x
          rw [hP.failures x]
          by_cases hxa : x = a
          · subst hxa; rw [hp1a.2.1, hrem.failures]
          · rw [hp1o x hxa, hrem.failures]
        · intro x
          rw [hP.inst x]
          by_cases hxa : x = a
          · subst hxa; rw [hp1a.2.2, hrem.inst]
          · rw [hp1o x hxa, hrem.inst]
        · intro x hx
          have hxa : x ≠ a := fun e => hx (e ▸ ha)
          have hx1 : x ∉ p1.retry := fun h => hx (hsub x h).2
          rw [hP.other x hx1, hp1o x hxa, hrem.other x hx]
      · have hb : Before now (p.mem a).retryTime = true := by simp [Before]; omega
        simp only [hb, Bool.not_true, Bool.false_eq_true, if_false]
        refine ⟨p, rfl, rfl, rfl, rfl, ⟨[], by simp, by simp, by simp⟩, ?_, fun _ => rfl,
          fun _ => rfl, fun _ _ => rfl, hidx, hheap⟩
        intro x hx
        obtain ⟨k, hk⟩ := mem_idx hx
        have hkl : k < p.retry.length := (List.getElem?_eq_some.mp hk).1
        have := HeapOrd_root_le p hheap k hkl
        rw [hk0, keyAt_of_get hk] at this
        exact ⟨by omega, rfl⟩

end pool

namespace agent

/-! ## Lemmas on the listener -/

theorem removeStale_fold (l0 : Listener) (recs : List ((String × String) × Instance)) :
    ∀ l : Listener, l.containers = l0.containers → l.hostIP = l0.hostIP →
      (recs.foldl (fun acc r => removeStale r.1.1 r.1.2 r.2 acc) l).containers = l0.containers ∧
      (recs.foldl (fun acc r => removeStale r.1.1 r.1.2 r.2 acc) l).hostIP = l0.hostIP ∧
      (recs.foldl (fun acc r => removeStale r.1.1 r.1.2 r.2 acc) l).services = l.services ∧
      (recs.foldl (fun acc r => removeStale r.1.1 r.1.2 r.2 acc) l).store.calls =
        l.store.calls ++
          (recs.filter (stale l0)).map (fun r => StoreCall.RemoveInstance r.1.1 r.1.2) ∧
      (recs.foldl (fun acc r => removeStale r.1.1 r.1.2 r.2 acc) l).store.instances =
        l.store.instances.filter
          (fun r => !((recs.filter (stale l0)).map fun r => r.1).contains r.1) := by
  induction recs with
  | nil => intro l hc hh; simp [hc, hh]
  | cons r recs ih =>
    intro l hc hh
    simp only [List.foldl_cons]
    by_cases hs : stale l0 r = true
    · have hstep : removeStale r.1.1 r.1.2 r.2 l =
          { l with store := (l.store.RemoveInstance r.1.1 r.1.2).1 } := by
        have : ((lookup l.containers r.1.2).isNone && owns l r.2) = true := by
          simpa [stale, owns, ownerID, hc, hh] using hs
        simp [removeStale, this]
      rw [hstep]
      obtain ⟨h1, h2, h3, h4, h5⟩ :=
        ih { l with store := (l.store.RemoveInstance r.1.1 r.1.2).1 } hc hh
      refine ⟨h1, h2, h3, ?_, ?_⟩
      · rw [h4]; simp [Store.RemoveInstance, List.filter_cons, hs]
      · rw [h5]
        simp only [Store.RemoveInstance, List.filter_cons, hs, if_true, List.map_cons,
          List.filter_filter]
        apply List.filter_congr
        intro x _
        simp only [List.contains_cons, Bool.not_or, bne, Bool.and_comm]
    · have hs' : stale l0 r = false := by simpa using hs
      have hstep : removeStale r.1.1 r.1.2 r.2 l = l := by
        have : ((lookup l.containers r.1.2).isNone && owns l r.2) = false := by
          simpa [stale, owns, ownerID, hc, hh] using hs'
        simp [removeStale, this]
      rw [hstep]
      obtain ⟨h1, h2, h3, h4, h5⟩ := ih l hc hh
      refine ⟨h1, h2, h3, ?_, ?_⟩
      · rw [h4]; simp [List.filter_cons, hs']
      · rw [h5]; simp [List.filter_cons, hs']

theorem firstBinding_eq (hostIP : String) (bindings : List PortBinding) :
    firstBinding hostIP bindings =
      match bindings.find? (acceptable hostIP) with
      | none => ("", 0)
      | some b =>
        match Atoi b.HostPort with
        | some q => (hostIP, q)
        | none => ("", 0) := by
  induction bindings with
  | nil => rfl
  | cons b rest ih =>
    by_cases h : b.HostIP = hostIP ∨ b.HostIP = "" ∨ b.HostIP = "0.0.0.0"
    · have ha : acceptable hostIP b = true := by
        simpa [acceptable, or_assoc] using h
      simp only [firstBinding, h, if_true, List.find?_cons, ha]
      cases Atoi b.HostPort <;> rfl
    · have ha : acceptable hostIP b = false := by
        have := h
        simp only [not_or] at this
        simp [acceptable, this.1, this.2.1, this.2.2]
      simp only [firstBinding, h, if_false, List.find?_cons, ha]
      exact ih

theorem deregisterLoop_frame (container : Container) (svcs : List (String × service)) :
    ∀ l : Listener, (deregisterLoop container svcs l).1.containers = l.containers ∧
      (deregisterLoop container svcs l).1.services = l.services := by
  induction svcs with
  | nil => intro l; exact ⟨rfl, rfl⟩
  | cons s rest ih =>
    intro l
    obtain ⟨serviceName, svc⟩ := s
    unfold deregisterLoop
    split
    · have := ih { l with store := (l.store.RemoveInstance serviceName container.ID).1 }
      simpa [Store.RemoveInstance] using this
    · exact ih l

/-- The die event leaves `containers` as it was. -/
theorem handle_die_containers (l : Listener) (id : String) (inspected : Option Container) :
    ∃ l1, handle l (.event "die" id inspected) = some l1 ∧ l1.containers = l.containers ∧
      l1.services = l.services := by
  have h1 : ("die" : String) ≠ "start" := by decide
  simp only [handle, h1, if_false, if_true]
  cases lookup l.containers id with
  | none => exact ⟨l, rfl, rfl, rfl⟩
  | some container =>
    exact ⟨_, rfl, (deregisterLoop_frame container l.services l).1,
      (deregisterLoop_frame container l.services l).2⟩

theorem LastIndex_none (s : List Char) (c : Char) (h : c ∉ s) : LastIndex s c = none := by
  induction s with
  | nil => rfl
  | cons x xs ih =>
    simp only [List.mem_cons, not_or] at h
    simp [LastIndex, ih h.2, Ne.symm h.1]

theorem LastIndex_append (pre suf : List Char) (c : Char) (h : c ∉ suf) :
    LastIndex (pre ++ c :: suf) c = some pre.length := by
  induction pre with
  | nil => simp [LastIndex, LastIndex_none suf c h]
  | cons x xs ih => simp [LastIndex, ih]

/-- The tag of an image reference without `:` is `latest`, without a colon. -/
theorem imageTag_no_colon (image : String) (h : ':' ∉ image.data) : imageTag image = "latest" := by
  simp [imageTag, LastIndex_none _ _ h]

/-- The tag of an image reference with a `:` is its suffix from the last `:` on. -/
theorem imageTag_colon (pre suf : List Char) (h : ':' ∉ suf) :
    imageTag ⟨pre ++ ':' :: suf⟩ = ⟨':' :: suf⟩ := by
  simp [imageTag, LastIndex_append pre suf ':' h]

end agent

/-! ## The claims -/

namespace pool

/-- C1, evaluated on the code: starting from the empty pool, `UpdateInstances([A, B, C])`
followed by `Failed(A)` (`A` is ready, at position `0`, not the last element) returns
with `ready = [C, B]` where `C`, the element that `fail` moved into the slot `0`, still has
`index == 2`: the index invariant does not hold after this call. -/
theorem fail_leaves_stale_index :
    ∃ q, run NewInstancePool
        [.update [instA, instB, instC] id unixEpoch, .failed 0 unixEpoch unixEpoch] = some q ∧
      q.ready = [2, 1] ∧ (q.mem 2).index = 2 ∧ ¬ ReadyIdx q := by
  have h : (run NewInstancePool
        [.update [instA, instB, instC] id unixEpoch, .failed 0 unixEpoch unixEpoch]).map
      (fun q => (q.ready, (q.mem 2).index)) = some ([2, 1], 2) := by decide
  cases hq : run NewInstancePool
      [.update [instA, instB, instC] id unixEpoch, .failed 0 unixEpoch unixEpoch] with
  | none => rw [hq] at h; simp at h
  | some q =>
    rw [hq] at h
    simp only [Option.map_some', Option.some.injEq, Prod.mk.injEq] at h
    refine ⟨q, rfl, h.1, h.2, fun hidx => ?_⟩
    have := hidx 0 2 (by rw [h.1]; rfl)
    omega

/-- C2, evaluated on the code: starting from the empty pool, the calls
`UpdateInstances([A, B, C])`, `Failed(A)`, `Succeeded(A)`, `Failed(C)`, each on an
instance that is in the pool, return with `ready = [C, B]` and `retry = [C]`: `C` is in
both arrays, it is in `ready` with its `retryTime` set, and `A` is in neither array. -/
theorem stale_index_breaks_partition :
    ∃ q, run NewInstancePool
        [.update [instA, instB, instC] id unixEpoch, .failed 0 unixEpoch unixEpoch,
         .succeeded 0 unixEpoch, .failed 2 unixEpoch unixEpoch] = some q ∧
      q.ready = [2, 1] ∧ q.retry = [2] ∧ (q.mem 2).retryTime ≠ 0 ∧
      ¬ (q.ready ++ q.retry).Nodup ∧ 0 ∉ q.ready ++ q.retry := by
  have h : (run NewInstancePool
        [.update [instA, instB, instC] id unixEpoch, .failed 0 unixEpoch unixEpoch,
         .succeeded 0 unixEpoch, .failed 2 unixEpoch unixEpoch]).map
      (fun q => (q.ready, q.retry, decide ((q.mem 2).retryTime ≠ 0)))
        = some ([2, 1], [2], true) := by decide
  cases hq : run NewInstancePool
      [.update [instA, instB, instC] id unixEpoch, .failed 0 unixEpoch unixEpoch,
       .succeeded 0 unixEpoch, .failed 2 unixEpoch unixEpoch] with
  | none => rw [hq] at h; simp at h
  | some q =>
    rw [hq] at h
    simp only [Option.map_some', Option.some.injEq, Prod.mk.injEq, decide_eq_true_eq] at h
    refine ⟨q, rfl, h.1, h.2.1, h.2.2, ?_, ?_⟩
    · rw [h.1, h.2.1]; decide
    · rw [h.1, h.2.1]; decide

/-- C3: for every pool whose pointers refer to allocated objects, every list `S` of
instances (repeated names and the empty list included) and every order in which the
run time iterates over the map, `UpdateInstances(S)` returns, and afterwards the
`Instance.Name` values over `ready` and `retry` are exactly the names in `S`, none of
them occurring twice. -/
theorem UpdateInstances_names (p : InstancePool) (S : List Instance)
    (order : WantMap → WantMap) (now : Int) (horder : ∀ m, (order m).Perm m)
    (halloc : ∀ a ∈ p.ready ++ p.retry, a < p.next) :
    ∃ q, UpdateInstances p S order now = some q ∧
      (∀ n, n ∈ names q ↔ n ∈ S.map fun i => i.Name) ∧ (names q).Nodup := by
  obtain ⟨q, hq, h1, h2, _⟩ := UpdateInstances_spec p S order now horder halloc
  exact ⟨q, hq, h2, h1⟩

theorem UpdateInstances_names_witness :
    ∃ q, UpdateInstances poolAB [instB, instC, instC] id unixEpoch = some q ∧
      (∀ n, n ∈ names q ↔ n ∈ [instB, instC, instC].map fun i => i.Name) ∧ (names q).Nodup :=
  UpdateInstances_names poolAB [instB, instC, instC] id unixEpoch (fun m => List.Perm.refl m)
    (by decide)

/-- C4 as stated fails: in the pool obtained from the empty one by
`UpdateInstances([A, B])` and `UpdateInstances([B])` the handle of `A` is in neither
array (`ready = [B]`, `retry = []`), and `Failed(A)` then leaves `ready = []` and
`retry = [A]`: `B` has been removed and `A` has been inserted again. -/
theorem misuse_not_noop :
    (run NewInstancePool
        [.update [instA, instB] id unixEpoch, .update [instB] id unixEpoch]).map
      (fun q => (q.ready, q.retry)) = some ([1], []) ∧
    (run NewInstancePool
        [.update [instA, instB] id unixEpoch, .update [instB] id unixEpoch,
         .failed 0 unixEpoch unixEpoch]).map
      (fun q => (q.ready, q.retry)) = some ([], [0]) := by
  decide

/-- C4 amended: for every pool and every handle `h` (in particular one that
`UpdateInstances` removed), `Succeeded(h)` on a handle without `retryTime` returns and
leaves `ready`, `retry`, the timer and every other object as they were, and `Failed(h)`
on a handle with its `retryTime` set returns and leaves the whole pool as it was. -/
theorem misuse_guarded (p : InstancePool) (h : Nat) (now now1 now2 : Int) :
    ((p.mem h).retryTime = 0 →
      ∃ q, Succeeded p h now = some q ∧ q.ready = p.ready ∧ q.retry = p.retry ∧
        q.timer = p.timer ∧ ∀ a, a ≠ h → q.mem a = p.mem a) ∧
    ((p.mem h).retryTime ≠ 0 → Failed p h now1 now2 = some p) := by
  constructor
  · intro hz
    exact ⟨_, Succeeded_ready p h now hz, rfl, rfl, rfl, fun a ha => by
      simp [Function.update_noteq ha]⟩
  · intro hnz
    simp [Failed, IsZero, hnz]

theorem misuse_guarded_witness :
    (∃ q, Succeeded poolGone 7 unixEpoch = some q ∧ q.ready = poolGone.ready ∧
        q.retry = poolGone.retry ∧ q.timer = poolGone.timer ∧
        ∀ a, a ≠ 7 → q.mem a = poolGone.mem a) ∧
    Failed poolGone 0 unixEpoch unixEpoch = some poolGone :=
  ⟨(misuse_guarded poolGone 7 unixEpoch unixEpoch unixEpoch).1 (by decide),
   (misuse_guarded poolGone 0 unixEpoch unixEpoch unixEpoch).2 (by decide)⟩

/-- C5 as stated fails: the pool `poolAB` holds `A` at `10.0.0.1:80`, and after
`UpdateInstances` with `A` at `10.9.9.9:8080` the pooled instance named `A` still has
the address `10.0.0.1:80`. -/
theorem address_not_updated :
    (poolAB.mem 0).Instance.Name = instA2.Name ∧
    (UpdateInstances poolAB [instA2] id unixEpoch).map
        (fun q => (q.ready, q.retry, (q.mem 0).Instance))
      = some ([], [0], instA) ∧
    instA.Address ≠ instA2.Address := by
  decide

/-- C5 amended: for every pool (its pointers referring to allocated objects) holding
an instance `x` whose name is in `S`, `UpdateInstances(S)` returns and the pool then
holds an instance `y` of the old pool with that name whose `Instance.Address`,
`failures` and `retryTime` are what they were before the call; `y` is `x` itself when
no name occurred twice in the old pool. -/
theorem UpdateInstances_keeps (p : InstancePool) (S : List Instance)
    (order : WantMap → WantMap) (now : Int) (x : Nat) (horder : ∀ m, (order m).Perm m)
    (halloc : ∀ a ∈ p.ready ++ p.retry, a < p.next) (hx : x ∈ p.ready ++ p.retry)
    (hS : (p.mem x).Instance.Name ∈ S.map fun i => i.Name) :
    ∃ q, UpdateInstances p S order now = some q ∧
      ∃ y ∈ q.ready ++ q.retry, y ∈ p.ready ++ p.retry ∧
        (q.mem y).Instance.Name = (p.mem x).Instance.Name ∧
        (q.mem y).Instance.Address = (p.mem y).Instance.Address ∧
        (q.mem y).failures = (p.mem y).failures ∧
        (q.mem y).retryTime = (p.mem y).retryTime ∧
        ((names p).Nodup → y = x) := by
  obtain ⟨q, hq, _, _, h3⟩ := UpdateInstances_spec p S order now horder halloc
  obtain ⟨y, hy, hyp, hn, hi, hf, ht⟩ := h3 x hx hS
  refine ⟨q, hq, y, hy, hyp, by rw [hi, hn], by rw [hi], hf, ht, ?_⟩
  intro hnd
  exact List.inj_on_of_nodup_map hnd hyp hx hn

theorem UpdateInstances_keeps_witness :
    ∃ q, UpdateInstances poolAB [instA2] id unixEpoch = some q ∧
      ∃ y ∈ q.ready ++ q.retry, y ∈ poolAB.ready ++ poolAB.retry ∧
        (q.mem y).Instance.Name = (poolAB.mem 0).Instance.Name ∧
        (q.mem y).Instance.Address = (poolAB.mem y).Instance.Address ∧
        (q.mem y).failures = (poolAB.mem y).failures ∧
        (q.mem y).retryTime = (poolAB.mem y).retryTime ∧
        ((names poolAB).Nodup → y = 0) :=
  UpdateInstances_keeps poolAB [instA2] id unixEpoch 0 (fun m => List.Perm.refl m)
    (by decide) (by decide) (by decide)

/-- C6 as stated fails: for the ready instance of `pool34`, whose failure count is
`34`, the demotion sets `retryTime` to `now` plus a delay that is negative in `int64`
arithmetic, not `2^34` seconds, and smaller than the delay for the count `33`. -/
theorem backoff_overflows :
    pool34.ready[(pool34.mem 0).index]? = some 0 ∧ (pool34.mem 0).failures = 34 ∧
    (fail pool34 0 unixEpoch unixEpoch).map (fun q => (q.mem 0).retryTime)
      = some (unixEpoch + backoffDelay 34) ∧
    backoffDelay 34 < 0 ∧ backoffDelay 34 ≠ 2 ^ 34 * Second ∧
    backoffDelay 34 < backoffDelay 33 := by
  decide

/-- C6 amended: for every instance that is in `ready` at its `index` with a failure
count `f` of at most `33`, the demotion `fail` at clock reading `now` returns and sets
`failures` to `f + 1` and `retryTime` to `now + 2^f` seconds; the delay computed in
`int64` is `2^f` seconds, strictly positive, and strictly larger than the delay for
`f - 1`. -/
theorem fail_backoff (p : InstancePool) (x : Nat) (now1 now2 : Int)
    (hx : p.ready[(p.mem x).index]? = some x) (hf : (p.mem x).failures ≤ 33) :
    ∃ q, fail p x now1 now2 = some q ∧
      (q.mem x).failures = (p.mem x).failures + 1 ∧
      (q.mem x).retryTime = now1 + 2 ^ (p.mem x).failures * Second ∧
      backoffDelay (p.mem x).failures = 2 ^ (p.mem x).failures * Second ∧
      0 < backoffDelay (p.mem x).failures ∧
      (0 < (p.mem x).failures →
        backoffDelay ((p.mem x).failures - 1) < backoffDelay (p.mem x).failures) := by
  obtain ⟨q, hq, hd⟩ := fail_spec p x now1 now2 hx
  have hb := backoffDelay_small _ hf
  have hpos : ∀ n : Nat, (0 : Int) < 2 ^ n * Second := fun n =>
    Int.mul_pos (by positivity) (by decide)
  refine ⟨q, hq, ?_, ?_, hb, ?_, ?_⟩
  · rw [hd.failures]; omega
  · rw [hd.retryTime, hb]
  · rw [hb]; exact hpos _
  · intro h0
    rw [hb, backoffDelay_small _ (by omega)]
    obtain ⟨m, hm⟩ : ∃ m, (p.mem x).failures = m + 1 := ⟨(p.mem x).failures - 1, by omega⟩
    rw [hm]
    simp only [Nat.add_sub_cancel, pow_succ]
    have := hpos m
    linarith

theorem fail_backoff_witness :
    ∃ q, fail poolA 0 unixEpoch unixEpoch = some q ∧
      (q.mem 0).failures = (poolA.mem 0).failures + 1 ∧
      (q.mem 0).retryTime = unixEpoch + 2 ^ (poolA.mem 0).failures * Second ∧
      backoffDelay (poolA.mem 0).failures = 2 ^ (poolA.mem 0).failures * Second ∧
      0 < backoffDelay (poolA.mem 0).failures ∧
      (0 < (poolA.mem 0).failures →
        backoffDelay ((poolA.mem 0).failures - 1) < backoffDelay (poolA.mem 0).failures) :=
  fail_backoff poolA 0 unixEpoch unixEpoch (by decide) (by decide)

/-- C7 as stated fails: `pool34` satisfies the pool invariants, its ready instance has
failed `34` times, and `PickInstance` returns it demoted with a `retryTime` that is not
`now + 2^34` seconds. -/
theorem pick_delay_overflows :
    PoolInv pool34 ∧ pool34.ready[0]? = some 0 ∧ (pool34.mem 0).failures = 34 ∧
    (PickInstance pool34 0 unixEpoch unixEpoch).map
        (fun r => (r.1, r.2.ready, r.2.retry, (r.2.mem 0).retryTime))
      = some (some 0, [], [0], unixEpoch + backoffDelay 34) ∧
    unixEpoch + backoffDelay 34 ≠ unixEpoch + 2 ^ 34 * Second :=
  ⟨PoolInv_single pool34 0 rfl rfl rfl rfl, by decide⟩

/-- C7 amended: in a pool satisfying the pool invariants, `PickInstance` with the
random index `r < len(ready)` returns the instance `x` at `ready[r]`; if `x.failures`
was `0` the pool is unchanged; if it was `f > 0`, then `x` is in `retry` and not in
`ready`, `x.failures` is `f + 1` in the unsigned 64-bit counter, `x.retryTime` is `now`
plus the `int64` product `(1 << f) * 1s`, which is `2^f` seconds if and only if
`f ≤ 33`, and every other instance is in the array it was in; that `retryTime` is not
the zero time when the clock reads 1970 or later (or when `f ≤ 33` and the clock is not
before the zero time), and whenever it is not the zero time a subsequent `Failed(x)`
changes nothing and a subsequent `Succeeded(x)` puts `x` back in `ready` with
`failures == 0`. -/
theorem PickInstance_speculative (p : InstancePool) (r x : Nat) (now1 now2 : Int)
    (hinv : PoolInv p) (hx : p.ready[r]? = some x) :
    ∃ q, PickInstance p r now1 now2 = some (some x, q) ∧
      ((p.mem x).failures = 0 → q = p) ∧
      (0 < (p.mem x).failures →
        x ∈ q.retry ∧ x ∉ q.ready ∧
        (q.mem x).failures = ((p.mem x).failures + 1) % 2 ^ 64 ∧
        (q.mem x).retryTime = now1 + backoffDelay (p.mem x).failures ∧
        (backoffDelay (p.mem x).failures = 2 ^ (p.mem x).failures * Second ↔
          (p.mem x).failures ≤ 33) ∧
        (∀ y, y ≠ x → ((y ∈ q.ready ↔ y ∈ p.ready) ∧ (y ∈ q.retry ↔ y ∈ p.retry))) ∧
        ((unixEpoch ≤ now1 ∨ (0 ≤ now1 ∧ (p.mem x).failures ≤ 33)) →
          (q.mem x).retryTime ≠ 0) ∧
        ((q.mem x).retryTime ≠ 0 →
          (∀ t1 t2, Failed q x t1 t2 = some q) ∧
          (∀ t, ∃ s, Succeeded q x t = some s ∧ x ∈ s.ready ∧ x ∉ s.retry ∧
            (s.mem x).failures = 0))) := by
  have hnd := List.nodup_append.mp hinv.nodup
  have hxm : x ∈ p.ready := List.getElem?_mem hx
  have hxr : x ∉ p.retry := fun h => hnd.2.2 hxm h
  have hidx : p.ready[(p.mem x).index]? = some x := by
    rw [hinv.readyIdx r x hx]; exact hx
  rw [PickInstance_ready p r x now1 now2 hx]
  by_cases hf0 : (p.mem x).failures = 0
  · refine ⟨p, by simp [hf0], fun _ => rfl, fun h => absurd hf0 (by omega)⟩
  · obtain ⟨q, hq, hd⟩ := fail_spec p x now1 now2 hidx
    refine ⟨q, by simp [hf0, hq], fun h => absurd h hf0, ?_⟩
    intro _
    have hxq : x ∈ q.retry := hd.retryPerm.mem_iff.mpr (List.mem_cons_self _ _)
    have hndq : q.retry.Nodup :=
      (List.Perm.nodup_iff hd.retryPerm).mpr (List.nodup_cons.mpr ⟨hxr, hnd.2.1⟩)
    have hndr : (x :: q.ready).Nodup := (List.Perm.nodup_iff hd.readyPerm).mp hnd.1
    refine ⟨hxq, (List.nodup_cons.mp hndr).1, hd.failures, hd.retryTime,
      backoffDelay_eq_iff _, ?_, ?_, ?_⟩
    · intro y hy
      constructor
      · rw [hd.readyPerm.mem_iff]; simp [hy]
      · rw [hd.retryPerm.mem_iff]; simp [hy]
    · intro hclock
      rw [hd.retryTime]
      rcases hclock with h | ⟨h, hf33⟩
      · have := backoffDelay_ge (p.mem x).failures
        have := unixEpoch_gt
        omega
      · rw [backoffDelay_small _ hf33]
        have hpos : (0 : Int) < 2 ^ (p.mem x).failures * Second :=
          Int.mul_pos (by positivity) (by decide)
        omega
    · intro hrt0
      refine ⟨?_, ?_⟩
      · intro t1 t2
        simp [Failed, IsZero, hrt0]
      · intro t
        obtain ⟨k, hk⟩ := mem_idx hxq
        have hik := hd.idx hinv.retryIdx hxr k x hk
        obtain ⟨s, hs, hp⟩ := Succeeded_retry q x t (by rw [hik]; exact hk) hrt0 hndq
        exact ⟨s, hs, by rw [hp.ready]; simp, hp.notMem, hp.failures⟩

theorem PickInstance_speculative_witness :
    ∃ q, PickInstance poolSuspect 1 unixEpoch unixEpoch = some (some 1, q) ∧
      ((poolSuspect.mem 1).failures = 0 → q = poolSuspect) ∧
      (1 ∈ q.retry ∧ 1 ∉ q.ready ∧
        (q.mem 1).failures = 2 ∧
        (q.mem 1).retryTime = unixEpoch + 2 * Second ∧
        (∀ y, y ≠ 1 → ((y ∈ q.ready ↔ y ∈ poolSuspect.ready) ∧
          (y ∈ q.retry ↔ y ∈ poolSuspect.retry))) ∧
        (∀ t1 t2, Failed q 1 t1 t2 = some q) ∧
        (∀ t, ∃ s, Succeeded q 1 t = some s ∧ 1 ∈ s.ready ∧ 1 ∉ s.retry ∧
          (s.mem 1).failures = 0)) := by
  obtain ⟨q, h1, h2, h3⟩ :=
    PickInstance_speculative poolSuspect 1 1 unixEpoch unixEpoch PoolInv_poolSuspect (by decide)
  obtain ⟨a, b, c, d, _, e, f, g⟩ := h3 (by decide)
  have hg := g (f (Or.inl (le_refl _)))
  exact ⟨q, h1, h2, a, b, c, d, e, hg.1, hg.2⟩

/-- C8: in a pool satisfying the pool invariants, `Succeeded` on an instance `x` of
the pool (in `ready` or in `retry`, whatever its failure count) returns and leaves
`x` with `failures == 0` and no `retryTime`, in `ready` at position `x.index` and
not in `retry`; `retry` is still a min-heap and holds exactly its former
elements other than `x`, and every other instance is in the array it was in. -/
theorem Succeeded_resets (p : InstancePool) (x : Nat) (now : Int) (hinv : PoolInv p)
    (hx : x ∈ p.ready ++ p.retry) :
    ∃ q, Succeeded p x now = some q ∧ (q.mem x).failures = 0 ∧ (q.mem x).retryTime = 0 ∧
      q.ready[(q.mem x).index]? = some x ∧ x ∉ q.retry ∧ HeapOrd q ∧
      q.retry.Perm (p.retry.erase x) ∧
      (∀ y, y ≠ x → ((y ∈ q.ready ↔ y ∈ p.ready) ∧ (y ∈ q.retry ↔ y ∈ p.retry))) := by
  have hnd := List.nodup_append.mp hinv.nodup
  rcases List.mem_append.mp hx with hr | hr
  · have hrt := hinv.readyZero x hr
    have hxr : x ∉ p.retry := fun h => hnd.2.2 hr h
    obtain ⟨k, hk⟩ := mem_idx hr
    have hik := hinv.readyIdx k x hk
    refine ⟨_, Succeeded_ready p x now hrt, by simp, by simp [hrt], ?_, hxr, ?_, ?_, ?_⟩
    · simp [hik, hk]
    · refine HeapOrd_of (p := p) rfl ?_ hinv.heap
      intro a _
      by_cases ha : a = x
      · subst ha; simp
      · simp [Function.update_noteq ha]
    · simp [List.erase_of_not_mem hxr]
    · intro y _; exact ⟨Iff.rfl, Iff.rfl⟩
  · have hrt := hinv.retrySet x hr
    obtain ⟨k, hk⟩ := mem_idx hr
    have hik := hinv.retryIdx k x hk
    obtain ⟨q, hq, hp⟩ := Succeeded_retry p x now (by rw [hik]; exact hk) hrt hnd.2.1
    refine ⟨q, hq, hp.failures, hp.retryTime, ?_, hp.notMem, hp.heap hinv.heap, ?_, ?_⟩
    · rw [hp.index, hp.ready]; simp
    · have := (hp.perm.erase x).symm
      simpa using this
    · intro y hy
      constructor
      · rw [hp.ready]; simp [hy]
      · rw [hp.perm.mem_iff]; simp [hy]

theorem Succeeded_resets_witness :
    ∃ q, Succeeded poolAB 0 unixEpoch = some q ∧ (q.mem 0).failures = 0 ∧
      (q.mem 0).retryTime = 0 ∧ q.ready[(q.mem 0).index]? = some 0 ∧ 0 ∉ q.retry ∧ HeapOrd q ∧
      q.retry.Perm (poolAB.retry.erase 0) ∧
      (∀ y, y ≠ 0 → ((y ∈ q.ready ↔ y ∈ poolAB.ready) ∧ (y ∈ q.retry ↔ y ∈ poolAB.retry))) :=
  Succeeded_resets poolAB 0 unixEpoch PoolInv_poolAB (by decide)

/-- C9: for every pool and every instance `x` whose `retryTime` is set, `Failed(x)`
returns the pool unchanged; and for every pool and instance, when the clock does not
read a time before 1970, `Failed(x)` followed by `Failed(x)` gives what a single
`Failed(x)` gives. -/
theorem Failed_idempotent (p : InstancePool) (x : Nat) (now1 now2 now3 now4 : Int) :
    ((p.mem x).retryTime ≠ 0 → Failed p x now1 now2 = some p) ∧
    (unixEpoch ≤ now1 →
      (Failed p x now1 now2).bind (fun q => Failed q x now3 now4) = Failed p x now1 now2) := by
  have h1 : ∀ (r : InstancePool) (t1 t2 : Int), (r.mem x).retryTime ≠ 0 →
      Failed r x t1 t2 = some r := by
    intro r t1 t2 h
    simp [Failed, IsZero, h]
  refine ⟨h1 p now1 now2, fun hclock => ?_⟩
  by_cases hrt : (p.mem x).retryTime = 0
  · have hF : Failed p x now1 now2 = fail p x now1 now2 := by simp [Failed, IsZero, hrt]
    rw [hF]
    cases hq : fail p x now1 now2 with
    | none => rfl
    | some q =>
      have := (fail_mem p x now1 now2 q hq).1
      have hge := backoffDelay_ge (p.mem x).failures
      have hu := unixEpoch_gt
      simp only [Option.some_bind]
      exact h1 q now3 now4 (by omega)
  · rw [h1 p now1 now2 hrt]
    exact h1 p now3 now4 hrt

theorem Failed_idempotent_witness :
    Failed poolAB 0 unixEpoch unixEpoch = some poolAB ∧
    (Failed poolA 0 unixEpoch unixEpoch).bind (fun q => Failed q 0 unixEpoch unixEpoch) =
      Failed poolA 0 unixEpoch unixEpoch :=
  ⟨(Failed_idempotent poolAB 0 unixEpoch unixEpoch unixEpoch unixEpoch).1 (by decide),
   (Failed_idempotent poolA 0 unixEpoch unixEpoch unixEpoch unixEpoch).2 (by decide)⟩

/-- C10 as stated fails: in the pool holding the single ready instance `A`, three
`Failed(A)` calls at `t0` leave `A.retryTime == t0 + 1s` and `A.failures == 1`, not
`t0 + 4s`, and after retry processing at `t0 + 4s` the instance `A` is ready with
`failures == 1`, not `3`. -/
theorem three_fails_one_delay :
    (run poolA [.failed 0 unixEpoch unixEpoch, .failed 0 unixEpoch unixEpoch,
        .failed 0 unixEpoch unixEpoch]).map (fun q => ((q.mem 0).retryTime, (q.mem 0).failures))
      = some (unixEpoch + 1 * Second, 1) ∧
    (run poolA [.failed 0 unixEpoch unixEpoch, .failed 0 unixEpoch unixEpoch,
        .failed 0 unixEpoch unixEpoch, .process (unixEpoch + 4 * Second)]).map
        (fun q => (q.ready, (q.mem 0).failures))
      = some ([0], 1) ∧
    unixEpoch + 1 * Second ≠ unixEpoch + 4 * Second := by
  decide

/-- C10 amended: in a pool holding the single ready instance `A` with `failures == 0`,
three `Failed(A)` calls with the clock fixed at `t0` (not before the zero time) leave `A`
alone in `retry` with `retryTime == t0 + 1s` and `failures == 1`, only the first call
demoting it; after retry processing at `t0 + 4s`, `A` is back in `ready`, without
`retryTime`, with `failures == 1`. -/
theorem backoff_scenario (p : InstancePool) (a : Nat) (t0 : Int) (hready : p.ready = [a])
    (hretry : p.retry = []) (hf : (p.mem a).failures = 0) (ht : (p.mem a).retryTime = 0)
    (hi : (p.mem a).index = 0) (hclock : 0 ≤ t0) :
    ∃ q, run p [.failed a t0 t0, .failed a t0 t0, .failed a t0 t0] = some q ∧
      q.ready = [] ∧ q.retry = [a] ∧
      (q.mem a).retryTime = t0 + 1 * Second ∧ (q.mem a).failures = 1 ∧
      ∃ s, processRetries q (t0 + 4 * Second) = some s ∧
        s.ready = [a] ∧ s.retry = [] ∧ (s.mem a).retryTime = 0 ∧ (s.mem a).failures = 1 := by
  obtain ⟨q, hq, hd⟩ := fail_spec p a t0 t0 (by rw [hi, hready]; rfl)
  have hqr : q.ready = [] := by
    have := hd.readyPerm.length_eq
    simp [hready] at this
    exact this
  have hqq : q.retry = [a] := by
    have := hd.retryPerm
    rw [hretry] at this
    exact List.perm_singleton.mp this
  have hrt : (q.mem a).retryTime = t0 + 1 * Second := by
    rw [hd.retryTime, hf]; rfl
  have hfl : (q.mem a).failures = 1 := by rw [hd.failures, hf]; rfl
  have hS : Second = 1000000000 := rfl
  have hF1 : Failed p a t0 t0 = some q := by simp [Failed, IsZero, ht, hq]
  have hF2 : Failed q a t0 t0 = some q := by
    have : (q.mem a).retryTime ≠ 0 := by rw [hrt]; omega
    simp [Failed, IsZero, this]
  refine ⟨q, by simp [run, step, hF1, hF2], hqr, hqq, hrt, hfl, ?_⟩
  obtain ⟨s, hs, hsr, hsq, hsf, hst, _⟩ :=
    processLoop_single q a (t0 + 4 * Second) hqq (by rw [hrt]; omega)
  refine ⟨resetTimer s (t0 + 4 * Second), ?_, ?_, ?_, ?_, ?_⟩
  · simp [processRetries, hqq, hs]
  · simp [hsr, hqr]
  · simp [hsq]
  · simp [hst]
  · simp [hsf, hfl]

theorem backoff_scenario_witness :
    ∃ q, run poolA [.failed 0 unixEpoch unixEpoch, .failed 0 unixEpoch unixEpoch,
        .failed 0 unixEpoch unixEpoch] = some q ∧
      q.ready = [] ∧ q.retry = [0] ∧
      (q.mem 0).retryTime = unixEpoch + 1 * Second ∧ (q.mem 0).failures = 1 ∧
      ∃ s, processRetries q (unixEpoch + 4 * Second) = some s ∧
        s.ready = [0] ∧ s.retry = [] ∧ (s.mem 0).retryTime = 0 ∧ (s.mem 0).failures = 1 :=
  backoff_scenario poolA 0 unixEpoch rfl rfl rfl rfl rfl (by decide)

/-- C11 as stated fails: `Stop` on the new pool, and on a pool with an armed timer,
completes and leaves the pool stopped with its timer disarmed, and a second `Stop`
then panics, the channel `stopped` being closed already. -/
theorem second_Stop_panics :
    (Stop NewInstancePool).map (fun q => (q.stopped, q.timer)) = some (true, none) ∧
    ((Stop NewInstancePool).bind Stop).isNone = true ∧
    (Stop poolTimed).map (fun q => (q.stopped, q.timer)) = some (true, some ⟨false, Second⟩) ∧
    ((Stop poolTimed).bind Stop).isNone = true := by
  decide

/-- C11 amended: for every pool that has not been stopped, with or without a timer,
`Stop` completes and leaves the pool stopped, its timer (if it has one) disarmed and
`ready`, `retry` and the instances as they were; `Stop` is not idempotent: a second
call panics. -/
theorem Stop_once (p : InstancePool) (h : p.stopped = false) :
    ∃ q, Stop p = some q ∧ q.stopped = true ∧ (∀ t, q.timer = some t → t.armed = false) ∧
      (q.timer = none ↔ p.timer = none) ∧
      q.ready = p.ready ∧ q.retry = p.retry ∧ q.mem = p.mem ∧ Stop q = none := by
  refine ⟨{ p with stopped := true, timer := p.timer.map fun t => { t with armed := false } },
    by simp [Stop, h], rfl, ?_, ?_, rfl, rfl, rfl, by simp [Stop]⟩
  · intro t ht
    simp only [Option.map_eq_some'] at ht
    obtain ⟨t0, _, rfl⟩ := ht
    rfl
  · simp

theorem Stop_once_witness :
    ∃ q, Stop poolTimed = some q ∧ q.stopped = true ∧ (∀ t, q.timer = some t → t.armed = false) ∧
      (q.timer = none ↔ poolTimed.timer = none) ∧
      q.ready = poolTimed.ready ∧ q.retry = poolTimed.retry ∧ q.mem = poolTimed.mem ∧
      Stop q = none :=
  Stop_once poolTimed (by decide)

/-- C12: for every pool whose `ready` is empty, `PickInstance` returns and leaves the
pool exactly as it was; it returns `nil` if and only if `retry` is empty as well, and
otherwise an instance that is a member of `retry`. -/
theorem PickInstance_fallback (p : InstancePool) (rnd : Nat) (now1 now2 : Int)
    (h : p.ready = []) :
    ∃ r, PickInstance p rnd now1 now2 = some (r, p) ∧ (r = none ↔ p.retry = []) ∧
      ∀ x, r = some x → x ∈ p.retry := by
  unfold PickInstance
  simp only [h, List.length_nil, ne_eq, not_true_eq_false, if_false]
  by_cases hr : p.retry = []
  · simp [hr]
  · have hlen : p.retry.length ≠ 0 := by simpa using hr
    have hlt : rnd % p.retry.length < p.retry.length := Nat.mod_lt _ (by omega)
    simp only [hlen, ne_eq, not_false_eq_true, if_true, List.getElem?_eq_getElem hlt]
    refine ⟨_, rfl, by simp [hr], ?_⟩
    intro x hx
    simp only [Option.some.injEq] at hx
    subst hx
    exact List.getElem_mem hlt

theorem PickInstance_fallback_witness :
    ∃ r, PickInstance poolRetryOnly 5 unixEpoch unixEpoch = some (r, poolRetryOnly) ∧
      (r = none ↔ poolRetryOnly.retry = []) ∧ ∀ x, r = some x → x ∈ poolRetryOnly.retry :=
  PickInstance_fallback poolRetryOnly 5 unixEpoch unixEpoch rfl

end pool

namespace agent

/-- C13, evaluated on the code: for the image reference `ubuntu`, which contains no
`:`, `imageTag` and the label matcher at the key `tag` give `latest`, not `:latest`,
while for `ubuntu:latest` they give `:latest`, with the colon. -/
theorem tag_default_lacks_colon :
    imageTag "ubuntu" = "latest" ∧ Label webContainer "tag" = some "latest" ∧
    imageTag "ubuntu" ≠ ":latest" ∧ imageTag "ubuntu:latest" = ":latest" := by
  decide

/-- C14, evaluated on the code: for a container with the environment entry `A=b=c`
the label matcher at the key `env.A` gives `b`, the piece between the first and the
second `=`, not `b=c`; the labels that `extractInstance` builds from the same entry
have `b=c` under `env.A`. -/
theorem envValue_cuts_value :
    Label webContainer "env.A" = some "b" ∧ envValue ["A=b=c"] "A" = some "b" ∧
    (extractInstance sampleListener fixedSpec webContainer).map
        (fun r => r.map fun inst => lookup inst.Labels "env.A") = some (some (some "b=c")) := by
  decide

/-- C15: for every container, host IP `h` and port `p`, `mappedPortAddress` is the
first binding listed under `<p>/tcp` whose `HostIP` is `h`, empty or `0.0.0.0`, giving
`(h, q)` when its `HostPort` parses as the decimal integer `q`, and the sentinel
`("", 0)` when there is no such binding, no entry for `<p>/tcp`, or the `HostPort`
does not parse; on the sentinel `extractInstance`, for a mapped spec whose selector
has been evaluated, returns `ok == false`. -/
theorem mappedPortAddress_first_binding (l : Listener) (container : Container) (port : Int) :
    mappedPortAddress l container port = mappedAddressSpec l.hostIP container port ∧
    (∀ spec : InstanceSpec, spec.AddressSpec.AddrType = "mapped" → spec.AddressSpec.Port = port →
      mappedPortAddress l container port = ("", 0) →
      ∀ b, Includes (Label container) spec.Selector = some b →
        extractInstance l spec container = some none) := by
  constructor
  · unfold mappedPortAddress mappedAddressSpec
    cases lookup container.NetworkSettings.Ports (portKey port) with
    | none => rfl
    | some bindings => exact firstBinding_eq l.hostIP bindings
  · intro spec ht hp hs b hb
    unfold extractInstance
    rw [hb]
    cases b with
    | false => rfl
    | true =>
      have : (getAddress l spec container).2 = 0 := by
        simp [getAddress, ht, hp, hs]
      simp [this]

theorem mappedPortAddress_first_binding_witness :
    (mappedPortAddress sampleListener webContainer 80 =
        mappedAddressSpec sampleListener.hostIP webContainer 80 ∧
      mappedPortAddress sampleListener webContainer 80 = ("10.0.0.9", 8080)) ∧
    extractInstance sampleListener mappedSpec fooContainer = some none :=
  ⟨⟨(mappedPortAddress_first_binding sampleListener webContainer 80).1, by decide⟩,
   (mappedPortAddress_first_binding sampleListener fooContainer 80).2 mappedSpec rfl rfl
     (by decide) true rfl⟩

/-- C16: for every store content with one record per key, services map and containers
map, the removal pass of `reconcile` calls `RemoveInstance(service, name)` exactly for
the instance records whose `OwnerID` is the host IP of the agent and whose name is not
a key of `containers`, and calls nothing else; every record of another owner is still
in the store afterwards, and so is every own record whose container is known. -/
theorem removalPass_owner_gated (l : Listener)
    (hkeys : (l.store.instances.map fun r => r.1).Nodup) :
    ∃ calls, (removalPass l).1.store.calls = l.store.calls ++ calls ∧
      (∀ serviceName instanceName,
        StoreCall.RemoveInstance serviceName instanceName ∈ calls ↔
          ∃ inst, ((serviceName, instanceName), inst) ∈ l.store.instances ∧
            inst.OwnerID = l.hostIP ∧ lookup l.containers instanceName = none) ∧
      (∀ serviceName instanceName inst,
        StoreCall.AddInstance serviceName instanceName inst ∉ calls) ∧
      (∀ r ∈ l.store.instances, r.2.OwnerID ≠ l.hostIP → r ∈ (removalPass l).1.store.instances) ∧
      (∀ r, r ∈ (removalPass l).1.store.instances ↔
        r ∈ l.store.instances ∧
          ¬ (r.2.OwnerID = l.hostIP ∧ lookup l.containers r.1.2 = none)) := by
  obtain ⟨_, _, _, h4, h5⟩ := removeStale_fold l l.store.instances l rfl rfl
  have hstale : ∀ r, stale l r = true ↔
      (r.2.OwnerID = l.hostIP ∧ lookup l.containers r.1.2 = none) := by
    intro r
    simp only [stale, owns, ownerID, Bool.and_eq_true, Option.isNone_iff_eq_none, beq_iff_eq]
    constructor
    · rintro ⟨h1, h2⟩; exact ⟨h2.symm, h1⟩
    · rintro ⟨h1, h2⟩; exact ⟨h2, h1.symm⟩
  have hmem : ∀ r, r ∈ (removalPass l).1.store.instances ↔
      r ∈ l.store.instances ∧ ¬ (r.2.OwnerID = l.hostIP ∧ lookup l.containers r.1.2 = none) := by
    intro r
    show r ∈ (l.store.instances.foldl (fun acc r => removeStale r.1.1 r.1.2 r.2 acc) l).store.instances
      ↔ _
    rw [h5, List.mem_filter]
    constructor
    · rintro ⟨hr, hn⟩
      refine ⟨hr, fun hst => ?_⟩
      have : r.1 ∈ (l.store.instances.filter (stale l)).map fun r => r.1 :=
        List.mem_map.mpr ⟨r, List.mem_filter.mpr ⟨hr, (hstale r).mpr hst⟩, rfl⟩
      have hc : ((l.store.instances.filter (stale l)).map fun r => r.1).contains r.1 = true :=
        List.elem_iff.mpr this
      rw [hc] at hn
      exact absurd hn (by simp)
    · rintro ⟨hr, hn⟩
      refine ⟨hr, ?_⟩
      rw [Bool.not_eq_true', ← Bool.not_eq_true]
      intro hc
      have hk : r.1 ∈ (l.store.instances.filter (stale l)).map fun r => r.1 :=
        List.elem_iff.mp hc
      obtain ⟨r', hr', hkey⟩ := List.mem_map.mp hk
      obtain ⟨hr'm, hr's⟩ := List.mem_filter.mp hr'
      have : r' = r := List.inj_on_of_nodup_map hkeys hr'm hr hkey
      subst this
      exact hn ((hstale r').mp hr's)
  have hrp : (removalPass l).1 =
      l.store.instances.foldl (fun acc r => removeStale r.1.1 r.1.2 r.2 acc) l := rfl
  refine ⟨(l.store.instances.filter (stale l)).map
      (fun r => StoreCall.RemoveInstance r.1.1 r.1.2), by rw [hrp]; exact h4, ?_, ?_, ?_, hmem⟩
  · intro serviceName instanceName
    simp only [List.mem_map, List.mem_filter]
    constructor
    · rintro ⟨r, ⟨hr, hs⟩, he⟩
      simp only [StoreCall.RemoveInstance.injEq] at he
      obtain ⟨h1, h2⟩ := (hstale r).mp hs
      refine ⟨r.2, ?_, h1, ?_⟩
      · rw [← he.1, ← he.2]; exact hr
      · rw [← he.2]; exact h2
    · rintro ⟨inst, hr, h1, h2⟩
      exact ⟨((serviceName, instanceName), inst), ⟨hr, (hstale _).mpr ⟨h1, h2⟩⟩, rfl⟩
  · intro serviceName instanceName inst h
    simp only [List.mem_map] at h
    obtain ⟨r, _, he⟩ := h
    cases he
  · intro r hr hne
    exact (hmem r).mpr ⟨hr, fun h => hne h.1⟩

theorem removalPass_owner_gated_witness :
    ∃ calls, (removalPass sampleListener).1.store.calls = sampleListener.store.calls ++ calls ∧
      (∀ serviceName instanceName,
        StoreCall.RemoveInstance serviceName instanceName ∈ calls ↔
          ∃ inst, ((serviceName, instanceName), inst) ∈ sampleListener.store.instances ∧
            inst.OwnerID = sampleListener.hostIP ∧
            lookup sampleListener.containers instanceName = none) ∧
      (∀ serviceName instanceName inst,
        StoreCall.AddInstance serviceName instanceName inst ∉ calls) ∧
      (∀ r ∈ sampleListener.store.instances, r.2.OwnerID ≠ sampleListener.hostIP →
        r ∈ (removalPass sampleListener).1.store.instances) ∧
      (∀ r, r ∈ (removalPass sampleListener).1.store.instances ↔
        r ∈ sampleListener.store.instances ∧
          ¬ (r.2.OwnerID = sampleListener.hostIP ∧
            lookup sampleListener.containers r.1.2 = none)) :=
  removalPass_owner_gated sampleListener (by decide)

/-- C17, evaluated on the code: the listener knows the container `cA`, registered on
`svcX`; after the event `die` for `cA` the record `svcX/cA` has been removed from the
store but `cA` is still a key of `containers`, and a later change of `svcX` registers
`cA` again. -/
theorem die_keeps_container :
    (handle sampleListener (.event "die" "cA" none)).map
        (fun l => (l.containers.map fun e => e.1, l.store.calls, l.store.instances.map fun r => r.1))
      = some (["cA"], [.RemoveInstance "svcX" "cA"], [("svcX", "cB"), ("svcX", "cC")]) ∧
    ((handle sampleListener (.event "die" "cA" none)).bind
        fun l => handle l (.change "svcX" false)).map
        (fun l => (l.containers.map fun e => e.1, l.store.instances.map fun r => r.1))
      = some (["cA"], [("svcX", "cA")]) := by
  decide

end agent

namespace pool

/-- C18, evaluated on the code: starting from the empty pool, two sequences of calls
on instances that are in the pool.  After `UpdateInstances([A, B, C])`, `Failed(A)`,
`Succeeded(A)`, `Failed(C)`, `Failed(B)` and a `PickInstance` that picks `C`, `retry`
is `[C, B, C]` with the deadline of `B` before the deadline of its parent `C`: not a
min-heap.  After the first four calls, a `PickInstance` that picks `C` and `Succeeded(C)`,
`retry` is `[C]` and `C` has no `retryTime`. -/
theorem stale_index_breaks_heap :
    (∃ q, run NewInstancePool
        [.update [instA, instB, instC] id unixEpoch, .failed 0 unixEpoch unixEpoch,
         .succeeded 0 unixEpoch, .failed 2 unixEpoch unixEpoch,
         .failed 1 (unixEpoch + 500000000) (unixEpoch + 500000000),
         .pick 0 (unixEpoch + 600000000) (unixEpoch + 600000000)] = some q ∧
      q.retry = [2, 1, 2] ∧ keyAt q 1 < keyAt q 0 ∧ ¬ HeapOrd q) ∧
    (∃ q, run NewInstancePool
        [.update [instA, instB, instC] id unixEpoch, .failed 0 unixEpoch unixEpoch,
         .succeeded 0 unixEpoch, .failed 2 unixEpoch unixEpoch,
         .pick 0 unixEpoch unixEpoch, .succeeded 2 unixEpoch] = some q ∧
      q.retry = [2] ∧ (q.mem 2).retryTime = 0) := by
  constructor
  · have h : (run NewInstancePool
        [.update [instA, instB, instC] id unixEpoch, .failed 0 unixEpoch unixEpoch,
         .succeeded 0 unixEpoch, .failed 2 unixEpoch unixEpoch,
         .failed 1 (unixEpoch + 500000000) (unixEpoch + 500000000),
         .pick 0 (unixEpoch + 600000000) (unixEpoch + 600000000)]).map
        (fun q => (q.retry, decide (keyAt q 1 < keyAt q 0))) = some ([2, 1, 2], true) := by
      decide
    cases hq : run NewInstancePool
        [.update [instA, instB, instC] id unixEpoch, .failed 0 unixEpoch unixEpoch,
         .succeeded 0 unixEpoch, .failed 2 unixEpoch unixEpoch,
         .failed 1 (unixEpoch + 500000000) (unixEpoch + 500000000),
         .pick 0 (unixEpoch + 600000000) (unixEpoch + 600000000)] with
    | none => rw [hq] at h; simp at h
    | some q =>
      rw [hq] at h
      simp only [Option.map_some', Option.some.injEq, Prod.mk.injEq, decide_eq_true_eq] at h
      refine ⟨q, rfl, h.1, h.2, fun hh => ?_⟩
      have := hh 1 (by omega) (by rw [h.1]; decide)
      have h2 := h.2
      simp only [Nat.sub_self, Nat.zero_div] at this
      omega
  · have h : (run NewInstancePool
        [.update [instA, instB, instC] id unixEpoch, .failed 0 unixEpoch unixEpoch,
         .succeeded 0 unixEpoch, .failed 2 unixEpoch unixEpoch,
         .pick 0 unixEpoch unixEpoch, .succeeded 2 unixEpoch]).map
        (fun q => (q.retry, (q.mem 2).retryTime)) = some ([2], 0) := by
      decide
    cases hq : run NewInstancePool
        [.update [instA, instB, instC] id unixEpoch, .failed 0 unixEpoch unixEpoch,
         .succeeded 0 unixEpoch, .failed 2 unixEpoch unixEpoch,
         .pick 0 unixEpoch unixEpoch, .succeeded 2 unixEpoch] with
    | none => rw [hq] at h; simp at h
    | some q =>
      rw [hq] at h
      simp only [Option.map_some', Option.some.injEq, Prod.mk.injEq] at h
      exact ⟨q, rfl, h.1, h.2⟩

/-- C19: for every pool in which `retry` is a min-heap on `retryTime` whose elements
record their positions, and every time `now`, `processRetries(now)` returns; every
instance that was in `retry` with `retryTime <= now` is then in `ready` and not in
`retry`, without `retryTime` and with its failure count unchanged; every instance that
was in `retry` with `retryTime > now` is still in `retry`, which is still a min-heap
with correct positions; the instances of `ready` are at their old positions. -/
theorem processRetries_promotes (p : InstancePool) (now : Int) (hidx : RetryIdx p)
    (hheap : HeapOrd p) :
    ∃ q, processRetries p now = some q ∧
      (∀ x ∈ p.retry, (p.mem x).retryTime ≤ now →
        x ∈ q.ready ∧ x ∉ q.retry ∧ (q.mem x).retryTime = 0 ∧
        (q.mem x).failures = (p.mem x).failures) ∧
      (∀ x ∈ p.retry, now < (p.mem x).retryTime →
        x ∈ q.retry ∧ (q.mem x).retryTime = (p.mem x).retryTime) ∧
      HeapOrd q ∧ RetryIdx q ∧
      (∀ (k a : Nat), p.ready[k]? = some a → q.ready[k]? = some a) := by
  obtain ⟨q, hq, hP⟩ := processLoop_spec now (p.retry.length + 1) p (by omega) hidx hheap
  obtain ⟨l, hl, hperm, hall⟩ := hP.popped
  have hnd : (l ++ q.retry).Nodup := (List.Perm.nodup_iff hperm).mp hidx.nodup
  refine ⟨resetTimer q now, by simp [processRetries, hq], ?_, ?_, ?_, ?_, ?_⟩
  · intro x hx hdue
    rcases List.mem_append.mp (hperm.mem_iff.mp hx) with h | h
    · refine ⟨by simp [hl, h], ?_, by simpa using (hall x h).2, by simpa using hP.failures x⟩
      simpa using fun hq => (List.nodup_append.mp hnd).2.2 h hq
    · have := (hP.late x h).1
      omega
  · intro x hx hlate
    rcases List.mem_append.mp (hperm.mem_iff.mp hx) with h | h
    · have := (hall x h).1
      omega
    · exact ⟨by simpa using h, by simpa using (hP.late x h).2⟩
  · exact HeapOrd_of (p := q) (by simp) (fun a _ => by simp) hP.heap
  · exact RetryIdx_of (p := q) (by simp) (fun a _ => by simp) hP.idx
  · intro k a hk
    have hkl : k < p.ready.length := (List.getElem?_eq_some.mp hk).1
    simp only [resetTimer_ready, hl]
    rw [List.getElem?_append_left hkl]; exact hk

theorem processRetries_promotes_witness :
    ∃ q, processRetries poolAB (unixEpoch + 2 * Second) = some q ∧
      (∀ x ∈ poolAB.retry, (poolAB.mem x).retryTime ≤ unixEpoch + 2 * Second →
        x ∈ q.ready ∧ x ∉ q.retry ∧ (q.mem x).retryTime = 0 ∧
        (q.mem x).failures = (poolAB.mem x).failures) ∧
      (∀ x ∈ poolAB.retry, unixEpoch + 2 * Second < (poolAB.mem x).retryTime →
        x ∈ q.retry ∧ (q.mem x).retryTime = (poolAB.mem x).retryTime) ∧
      HeapOrd q ∧ RetryIdx q ∧
      (∀ (k a : Nat), poolAB.ready[k]? = some a → q.ready[k]? = some a) :=
  processRetries_promotes poolAB (unixEpoch + 2 * Second) PoolInv_poolAB.retryIdx
    PoolInv_poolAB.heap

end pool

namespace agent

/-- C20, evaluated on the code: for the environment entry `FOO`, which has no `=`,
`envValue` with the key `FOO` (and the label matcher with `env.FOO`) indexes past the
end of the split result and panics, and so does the loop of `extractInstance` over
the environment; the same holds for the empty entry. -/
theorem env_entry_without_equals_panics :
    envValue ["FOO"] "FOO" = none ∧ Label fooContainer "env.FOO" = none ∧
    envValue [""] "" = none ∧ envLabels ["FOO"] [] = none ∧ envLabels [""] [] = none ∧
    extractInstance sampleListener fixedSpec fooContainer = none := by
  decide

end agent
